import Mathlib

/-!
Verification development for the plantuml-transpiler repository.

The development shallowly embeds the PlantUML class-diagram parser
(src/parser/PlantUMLParser.js) and the generator framework
(dist/generators/BaseGenerator.js) together with the intermediate model
records (src/models and dist/models).  JavaScript strings are modelled by
Lean strings (lists of characters, the inputs of interest are ASCII), the
regular expressions of the source are hand-compiled into deterministic
scanners over lists of characters (each scanner is annotated with the
regex it implements, and implements the exact JS backtracking semantics
of that regex), and the one JavaScript runtime fault the parser can hit
(pushing a method onto an Enum, which has no methods array) is modelled
with Except.
-/

namespace PlantUML

instance {ε α : Type} [DecidableEq ε] [DecidableEq α] : DecidableEq (Except ε α) := fun x y =>
  match x, y with
  | .error a, .error b => decidable_of_iff (a = b) (by simp)
  | .ok a, .ok b => decidable_of_iff (a = b) (by simp)
  | .error _, .ok _ => isFalse (by simp)
  | .ok _, .error _ => isFalse (by simp)

/-! Character classes and basic string operations used by the JS source.
JS "\s" (ASCII range, the inputs of interest contain no exotic spaces),
JS "\w" which is [A-Za-z0-9_], and the four PlantUML visibility symbols. -/

def jsWs (c : Char) : Bool :=
  c = ' ' || c = '\t' || c = '\n' || c = '\r' || c = '\x0b' || c = '\x0c'

def isWordChar (c : Char) : Bool :=
  c.isAlphanum || c = '_'

def visSymbol (c : Char) : Bool :=
  c = '+' || c = '-' || c = '#' || c = '~'

/-- Character-list core of the JS String.prototype.trim. -/
def trimChars (l : List Char) : List Char :=
  ((l.dropWhile jsWs).reverse.dropWhile jsWs).reverse

/-- JS String.prototype.trim (ASCII whitespace). -/
def jsTrim (s : String) : String :=
  ⟨trimChars s.data⟩

/-- JS String.prototype.startsWith. -/
def jsStartsWith (s pre : String) : Bool :=
  pre.data.isPrefixOf s.data

/-- JS String.prototype.endsWith. -/
def jsEndsWith (s suf : String) : Bool :=
  suf.data.reverse.isPrefixOf s.data.reverse

/-- JS String.prototype.includes, on character lists. -/
def containsSub (sub : List Char) : List Char → Bool
  | [] => sub.isEmpty
  | c :: rest => sub.isPrefixOf (c :: rest) || containsSub sub rest

/-- JS String.prototype.split with a single-character separator. -/
def splitOnChar (sep : Char) : List Char → List (List Char)
  | [] => [[]]
  | c :: rest =>
    if c = sep then [] :: splitOnChar sep rest
    else
      match splitOnChar sep rest with
      | [] => [[c]]
      | h :: t => (c :: h) :: t

/-- JS String.prototype.split with a (nonempty) multi-character separator;
fuelled scan, the top-level wrapper supplies ample fuel. -/
def splitOnSubF (sep : List Char) : Nat → List Char → List Char → List (List Char)
  | 0, l, cur => [cur.reverse ++ l]
  | _ + 1, [], cur => [cur.reverse]
  | fuel + 1, c :: rest, cur =>
    if sep.isPrefixOf (c :: rest) then
      cur.reverse :: splitOnSubF sep fuel ((c :: rest).drop sep.length) []
    else
      splitOnSubF sep fuel rest (c :: cur)

/-- JS s.split(sep) for a literal separator string. -/
def jsSplit (s : String) (sep : String) : List String :=
  (splitOnSubF sep.data (s.data.length + 1) s.data []).map (fun cs => (⟨cs⟩ : String))

/-- JS String.prototype.repeat for the single space character is not needed;
what is needed is the split on the regex (a comma followed by optional
whitespace), used for generic parameter lists: inner.split of the regex
slash comma backslash-s star slash. -/
def splitCommaWsF : Nat → List Char → List Char → List (List Char)
  | 0, l, cur => [cur.reverse ++ l]
  | _ + 1, [], cur => [cur.reverse]
  | fuel + 1, c :: rest, cur =>
    if c = ',' then cur.reverse :: splitCommaWsF fuel (rest.dropWhile jsWs) []
    else splitCommaWsF fuel rest (c :: cur)

def splitCommaWs (l : List Char) : List (List Char) :=
  splitCommaWsF (l.length + 1) l []

/-! The intermediate model records, translated from src/models and
dist/models.  Field order follows the JS constructors. -/

/-- Parameter record (models/Parameter.js). -/
structure Parameter where
  name : String
  type : String
deriving DecidableEq, Repr

/-- Attribute record (models/Attribute.js).  The visibility strings are
"public", "private", "protected", "package". -/
structure Attribute where
  name : String
  type : String
  visibility : String
  isStatic : Bool
  isFinal : Bool
deriving DecidableEq, Repr

/-- Method record (models/Method.js).  returnType none models the JS null
used for constructors. -/
structure Method where
  name : String
  returnType : Option String
  parameters : List Parameter
  visibility : String
  isStatic : Bool
  isAbstract : Bool
deriving DecidableEq, Repr

/-- Relationship record (models/Relationship.js).  type is one of
"inheritance", "implementation", "association", "aggregation",
"composition", "dependency". -/
structure Relationship where
  sourceClass : String
  targetClass : String
  type : String
  label : String
deriving DecidableEq, Repr

/-- Class record (models/Class.js). -/
structure Class where
  name : String
  isAbstract : Bool
  packageName : Option String
  attributes : List Attribute
  methods : List Method
  constructors : List Method
  generics : List String
deriving DecidableEq, Repr

/-- Interface record (models/Interface.js). -/
structure Interface where
  name : String
  packageName : Option String
  methods : List Method
  generics : List String
deriving DecidableEq, Repr

/-- Enum record (models/Enum.js). -/
structure Enum where
  name : String
  packageName : Option String
  values : List String
deriving DecidableEq, Repr

/-- ClassDiagram record (models/ClassDiagram.js).  The JS packages object
maps package names to arrays of entity names; JS objects preserve key
insertion order, which the association list models. -/
structure ClassDiagram where
  classes : List Class
  interfaces : List Interface
  enums : List Enum
  relationships : List Relationship
  packages : List (String × List String)
deriving DecidableEq, Repr

def emptyDiagram : ClassDiagram :=
  ⟨[], [], [], [], []⟩

/-- The entity currently being populated by the parser: the JS
currentEntity reference is a Class, an Interface or an Enum object. -/
inductive Entity where
  | cls (c : Class)
  | intf (i : Interface)
  | enm (e : Enum)
deriving DecidableEq, Repr

def entityName : Entity → String
  | .cls c => c.name
  | .intf i => i.name
  | .enm e => e.name

/-- JS truthiness of entity.attributes: only Class has the field. -/
def entityHasAttributes : Entity → Bool
  | .cls _ => true
  | _ => false

/-- JS entity.constructors.push guarded by if entity.constructors:
only Class has the field, other entities are left unchanged. -/
def pushConstructor (e : Entity) (m : Method) : Entity :=
  match e with
  | .cls c => .cls { c with constructors := c.constructors ++ [m] }
  | _ => e

/-- JS entity.methods.push, unguarded in the source: an Enum has no
methods array, so the access faults (TypeError) at runtime. -/
def pushMethodE (e : Entity) (m : Method) : Except String Entity :=
  match e with
  | .cls c => .ok (.cls { c with methods := c.methods ++ [m] })
  | .intf i => .ok (.intf { i with methods := i.methods ++ [m] })
  | .enm _ => .error "TypeError: cannot push onto entity.methods of an Enum"

/-- JS entity.attributes.push guarded by entity.attributes. -/
def pushAttribute (e : Entity) (a : Attribute) : Entity :=
  match e with
  | .cls c => .cls { c with attributes := c.attributes ++ [a] }
  | _ => e

/-- All member visibilities carried by an entity, used to state the
visibility-default properties of parseMember. -/
def memberVisibilities : Entity → List String
  | .cls c =>
    c.attributes.map (fun a => a.visibility)
      ++ c.methods.map (fun m => m.visibility)
      ++ c.constructors.map (fun m => m.visibility)
  | .intf i => i.methods.map (fun m => m.visibility)
  | .enm _ => []

/-! Package-object helpers: JS object assignment keeps the insertion
position of an existing key and appends new keys. -/

def pkgLookup (ps : List (String × List String)) (k : String) : Option (List String) :=
  (ps.find? (fun p => p.1 == k)).map (fun p => p.2)

def setPkg (ps : List (String × List String)) (k : String) (v : List String) :
    List (String × List String) :=
  if ps.any (fun p => p.1 == k) then
    ps.map (fun p => if p.1 == k then (p.1, v) else p)
  else ps ++ [(k, v)]

def pkgAppend (ps : List (String × List String)) (k : String) (n : String) :
    List (String × List String) :=
  ps.map (fun p => if p.1 == k then (p.1, p.2 ++ [n]) else p)

/-! Input sanitization (PlantUMLParser.sanitizeInput).  Four global regex
replaces, each compiled to a fuelled scan over the character list; the
fuel (length plus one) always suffices because every match consumes at
least one character, and running out of fuel returns the rest unchanged. -/

/-- Matcher for the line-terminator alternation in the sanitize regexes,
a carriage-return/newline pair, or a lone carriage return or newline,
reached by a lazy dot-star that cannot cross line terminators.  Returns
the remainder after the first terminator. -/
def lazyToTerm : List Char → Option (List Char)
  | [] => none
  | '\r' :: '\n' :: rest => some rest
  | '\r' :: rest => some rest
  | '\n' :: rest => some rest
  | _ :: rest => lazyToTerm rest

/-- Global replace of the startuml marker regex (at-startuml, lazy dots,
then a line terminator) by the empty string. -/
def replaceStartUmlF : Nat → List Char → List Char
  | 0, l => l
  | _ + 1, [] => []
  | fuel + 1, c :: rest =>
    if "@startuml".data.isPrefixOf (c :: rest) then
      match lazyToTerm ((c :: rest).drop 9) with
      | some rem => replaceStartUmlF fuel rem
      | none => c :: replaceStartUmlF fuel rest
    else c :: replaceStartUmlF fuel rest

/-- Global replace of the enduml marker regex (at-enduml, lazy dots, then
an optional line terminator).  The lazy dot-star never consumes anything
because the optional terminator group always succeeds, so the match is
the marker plus an immediately following terminator when present. -/
def replaceEndUmlF : Nat → List Char → List Char
  | 0, l => l
  | _ + 1, [] => []
  | fuel + 1, c :: rest =>
    if "@enduml".data.isPrefixOf (c :: rest) then
      let r := (c :: rest).drop 7
      let r2 := match r with
        | '\r' :: '\n' :: t => t
        | '\r' :: t => t
        | '\n' :: t => t
        | t => t
      replaceEndUmlF fuel r2
    else c :: replaceEndUmlF fuel rest

/-- Global replace of single-line comments (a quote character, lazy dots,
then a line terminator) by a newline. -/
def replaceQuoteCommentF : Nat → List Char → List Char
  | 0, l => l
  | _ + 1, [] => []
  | fuel + 1, c :: rest =>
    if c = '\x27' then
      match lazyToTerm rest with
      | some rem => '\n' :: replaceQuoteCommentF fuel rem
      | none => c :: replaceQuoteCommentF fuel rest
    else c :: replaceQuoteCommentF fuel rest

/-- Scan to the first closing star-slash of a block comment; the lazy
any-character class crosses line terminators. -/
def toStarSlash : List Char → Option (List Char)
  | [] => none
  | '*' :: '/' :: rest => some rest
  | _ :: rest => toStarSlash rest

/-- Global replace of block comments (slash-star, lazy any-characters,
star-slash) by the empty string. -/
def replaceBlockCommentF : Nat → List Char → List Char
  | 0, l => l
  | _ + 1, [] => []
  | fuel + 1, c :: rest =>
    if "/*".data.isPrefixOf (c :: rest) then
      match toStarSlash ((c :: rest).drop 2) with
      | some rem => replaceBlockCommentF fuel rem
      | none => c :: replaceBlockCommentF fuel rest
    else c :: replaceBlockCommentF fuel rest

/-- Runner supplying the standard fuel (input length plus one) to a
fuelled replace pass. -/
def withFuel (f : Nat → List Char → List Char) (l : List Char) : List Char :=
  f (l.length + 1) l

/-- PlantUMLParser.sanitizeInput: the four replaces applied in source
order. -/
def sanitizeInput (plantUmlCode : String) : String :=
  ⟨withFuel replaceBlockCommentF
    (withFuel replaceQuoteCommentF
      (withFuel replaceEndUmlF
        (withFuel replaceStartUmlF plantUmlCode.data)))⟩

/-! Scanners for the member and entity regexes.  Each scanner is the
hand compilation of one anchored JS regex; determinism is justified by
the disjointness of the adjacent character classes (word characters,
whitespace, and the punctuation literals), and points where JS would
backtrack observably are implemented with explicit alternatives. -/

/-- Leading part caret, whitespace-star, then one captured visibility
symbol of the class plus, minus, hash, tilde. -/
def visHead (l : List Char) : Option (Char × List Char) :=
  match l.dropWhile jsWs with
  | c :: rest => if visSymbol c then some (c, rest) else none
  | [] => none

/-- Leading part caret, whitespace-star, then a captured nonempty word
run. -/
def nameHead (l : List Char) : Option (List Char × List Char) :=
  if ((l.dropWhile jsWs).takeWhile isWordChar).isEmpty then none
  else some ((l.dropWhile jsWs).takeWhile isWordChar, (l.dropWhile jsWs).dropWhile isWordChar)

/-- Matcher for a keyword literal followed by one-or-more whitespace;
returns the remainder after the whitespace. -/
def keywordHead (kw : List Char) (l : List Char) : Option (List Char) :=
  if kw.isPrefixOf l then
    let r := l.drop kw.length
    if (r.takeWhile jsWs).isEmpty then none else some (r.dropWhile jsWs)
  else none

/-- Lazy dot-star capture up to a closing parenthesis whose suffix is all
whitespace to the end of the line (the constructor regexes end with
backslash-rparen whitespace-star dollar; the lazy group takes the first
closing parenthesis from which that suffix matches, and the dot cannot
cross line terminators). -/
def lazyParenToEnd : List Char → Option (List Char)
  | [] => none
  | c :: rest =>
    if c = ')' then
      if rest.all jsWs then some []
      else (fun cs => ')' :: cs) <$> lazyParenToEnd rest
    else if c = '\n' || c = '\r' then none
    else (fun cs => c :: cs) <$> lazyParenToEnd rest

/-- Lazy dot-star capture up to the first closing parenthesis (the method
regexes follow the parenthesis with an optional group that always
succeeds, so the lazy group stops at the first closing parenthesis);
returns the capture and the remainder after the parenthesis. -/
def firstParenContent : List Char → Option (List Char × List Char)
  | [] => none
  | c :: rest =>
    if c = ')' then some ([], rest)
    else if c = '\n' || c = '\r' then none
    else (fun p => (c :: p.1, p.2)) <$> firstParenContent rest

/-- Greedy dot-star followed by a literal greater-than: the capture runs
to the last greater-than inside the maximal terminator-free segment. -/
def greedyDotGt (l : List Char) : Option (List Char) :=
  let seg := l.takeWhile (fun c => !(c = '\n' || c = '\r'))
  match (seg.reverse.dropWhile (fun c => !(c = '>'))) with
  | '>' :: t => some t.reverse
  | _ => none

/-- Optional return-type group of the member regexes: whitespace-star,
colon, whitespace-star, then a captured word run optionally followed by
an angle-bracketed greedy segment.  Returns the capture when the group
matches; the caller treats none as the JS undefined capture. -/
def matchReturnType (l : List Char) : Option (List Char) :=
  match l.dropWhile jsWs with
  | ':' :: r =>
    let r1 := r.dropWhile jsWs
    let w := r1.takeWhile isWordChar
    if w.isEmpty then none
    else
      match r1.dropWhile isWordChar with
      | '<' :: r3 =>
        match greedyDotGt r3 with
        | some inner => some (w ++ '<' :: (inner ++ ['>']))
        | none => some w
      | _ => some w
  | _ => none

/-- Constructor regex with a visibility symbol: anchored start, optional
whitespace, captured visibility symbol, optional whitespace, captured
word name, optional whitespace, lparen, lazy captured parameter text,
rparen, optional whitespace, anchored end. -/
def matchCtorVis (l : List Char) : Option (Char × List Char × List Char) :=
  match visHead l with
  | none => none
  | some (sym, r1) =>
    match nameHead r1 with
    | none => none
    | some (name, r2) =>
      match r2.dropWhile jsWs with
      | '(' :: r3 =>
        match lazyParenToEnd r3 with
        | some content => some (sym, name, content)
        | none => none
      | _ => none

/-- Constructor regex without a visibility symbol: anchored start,
optional whitespace, captured word name, optional whitespace, lparen,
lazy captured parameter text, rparen, optional whitespace, anchored
end. -/
def matchCtorNoVis (l : List Char) : Option (List Char × List Char) :=
  match nameHead l with
  | none => none
  | some (name, r2) =>
    match r2.dropWhile jsWs with
    | '(' :: r3 =>
      match lazyParenToEnd r3 with
      | some content => some (name, content)
      | none => none
    | _ => none

/-- Method regex with a visibility symbol: anchored start, optional
whitespace, captured visibility symbol, optional whitespace, captured
word name, optional whitespace, lparen, lazy captured parameter text,
rparen, then the optional return-type group; unanchored end. -/
def matchMethodVis (l : List Char) :
    Option (Char × List Char × List Char × Option (List Char)) :=
  match visHead l with
  | none => none
  | some (sym, r1) =>
    match nameHead r1 with
    | none => none
    | some (name, r2) =>
      match r2.dropWhile jsWs with
      | '(' :: r3 =>
        match firstParenContent r3 with
        | some (content, r4) => some (sym, name, content, matchReturnType r4)
        | none => none
      | _ => none

/-- Method regex without a visibility symbol: anchored start, optional
whitespace, captured word name, optional whitespace, lparen, lazy
captured parameter text, rparen, then the optional return-type group. -/
def matchMethodNoVis (l : List Char) :
    Option (List Char × List Char × Option (List Char)) :=
  match nameHead l with
  | none => none
  | some (name, r2) =>
    match r2.dropWhile jsWs with
    | '(' :: r3 =>
      match firstParenContent r3 with
      | some (content, r4) => some (name, content, matchReturnType r4)
      | none => none
    | _ => none

/-- Attribute regex with a visibility symbol: anchored start, optional
whitespace, captured visibility symbol, optional whitespace, captured
word name, then the optional type group. -/
def matchAttrVis (l : List Char) : Option (Char × List Char × Option (List Char)) :=
  match visHead l with
  | none => none
  | some (sym, r1) =>
    match nameHead r1 with
    | none => none
    | some (name, r2) => some (sym, name, matchReturnType r2)

/-- Attribute regex without a visibility symbol: anchored start, optional
whitespace, captured word name, then the optional type group. -/
def matchAttrNoVis (l : List Char) : Option (List Char × Option (List Char)) :=
  match nameHead l with
  | none => none
  | some (name, r2) => some (name, matchReturnType r2)

/-! Modifier handling (PlantUMLParser.extractModifiers,
PlantUMLParser.removeModifiers) and the preliminary trailing-brace strip
of parseMember. -/

/-- Single replace of the trailing-brace regex (whitespace-star, an
opening brace, whitespace-star, anchored end) by the empty string: the
match, when it exists, covers the last opening brace, the maximal
whitespace before it and all whitespace after it. -/
def stripTrailingBrace (line : String) : String :=
  let r := line.data.reverse
  let r1 := r.dropWhile jsWs
  match r1 with
  | '\x7b' :: t => ⟨(t.dropWhile jsWs).reverse⟩
  | _ => line

/-- Global scan of the modifier regex (an opening brace, a captured
nonempty word run, a closing brace); on a failed attempt the JS engine
advances one character. -/
def extractModifiersF : Nat → List Char → List String
  | 0, _ => []
  | _ + 1, [] => []
  | fuel + 1, c :: rest =>
    if c = '\x7b' then
      let w := rest.takeWhile isWordChar
      if !w.isEmpty && (rest.drop w.length).head? = some '\x7d' then
        (⟨w⟩ : String) :: extractModifiersF fuel (rest.drop (w.length + 1))
      else extractModifiersF fuel rest
    else extractModifiersF fuel rest

/-- Global replace of the modifier regex by the empty string. -/
def removeModifiersF : Nat → List Char → List Char
  | 0, l => l
  | _ + 1, [] => []
  | fuel + 1, c :: rest =>
    if c = '\x7b' then
      let w := rest.takeWhile isWordChar
      if !w.isEmpty && (rest.drop w.length).head? = some '\x7d' then
        removeModifiersF fuel (rest.drop (w.length + 1))
      else c :: removeModifiersF fuel rest
    else c :: removeModifiersF fuel rest

def extractModifiers (line : String) : List String :=
  extractModifiersF (line.data.length + 1) line.data

def removeModifiers (line : String) : String :=
  ⟨removeModifiersF (line.data.length + 1) line.data⟩

/-- The local variable line of parseMember: the raw line trimmed and with
a trailing opening brace stripped. -/
def memberLine (line0 : String) : String :=
  stripTrailingBrace (jsTrim line0)

/-- The local variable modifiers of parseMember. -/
def memberModifiers (line0 : String) : List String :=
  extractModifiers (memberLine line0)

/-- The local variable cleanedLine of parseMember. -/
def cleanedMemberLine (line0 : String) : String :=
  removeModifiers (memberLine line0)

/-- PlantUMLParser.parseVisibility. -/
def parseVisibility (symbol : Char) : String :=
  if symbol = '+' then "public"
  else if symbol = '-' then "private"
  else if symbol = '#' then "protected"
  else if symbol = '~' then "package"
  else "public"

/-- The parameter-token mapper of parseParameters: the token is split on
every colon, the pieces are trimmed, the first piece is the name and the
second the type; a missing or empty type falls back to Object (the JS
or-default also catches the empty string). -/
def paramOfToken (paramStr : String) : Parameter :=
  let parts := (splitOnChar ':' paramStr.data).map (fun cs => jsTrim (⟨cs⟩ : String))
  let name := parts.headD ""
  let type := match parts.drop 1 with
    | t :: _ => if t = "" then "Object" else t
    | [] => "Object"
  ⟨name, type⟩

/-- The comma-splitting loop of parseParameters: split on commas at
angle-bracket depth zero only; the depth counter is a JS number and may
go negative. -/
def splitParamsLoop : List Char → Int → List Char → List String → List String
  | [], _, buffer, params =>
    if jsTrim (⟨buffer.reverse⟩ : String) ≠ "" then
      params ++ [jsTrim (⟨buffer.reverse⟩ : String)]
    else params
  | c :: rest, depth, buffer, params =>
    if c = '<' then splitParamsLoop rest (depth + 1) (c :: buffer) params
    else if c = '>' then splitParamsLoop rest (depth - 1) (c :: buffer) params
    else if c = ',' ∧ depth = 0 then
      splitParamsLoop rest depth [] (params ++ [jsTrim (⟨buffer.reverse⟩ : String)])
    else splitParamsLoop rest depth (c :: buffer) params

/-- PlantUMLParser.parseParameters.  Every push (at top-level commas and
at the end) pushes the trimmed buffer, and the trailing buffer is pushed
only when its trim is nonempty. -/
def parseParameters (paramsStr : String) : List Parameter :=
  if jsTrim paramsStr = "" then []
  else (splitParamsLoop paramsStr.data 0 [] []).map paramOfToken

/-- Branch condition of the constructor-with-visibility case of
parseMember: the regex matched and the captured name equals the entity
name. -/
def ctorVisHit (cl : List Char) (nm : String) : Option (Char × List Char) :=
  match matchCtorVis cl with
  | some (sym, name, ps) => if (⟨name⟩ : String) = nm then some (sym, ps) else none
  | none => none

/-- Branch condition of the constructor-without-visibility case. -/
def ctorNoVisHit (cl : List Char) (nm : String) : Option (List Char) :=
  match matchCtorNoVis cl with
  | some (name, ps) => if (⟨name⟩ : String) = nm then some ps else none
  | none => none

/-- Branch condition of the method-without-visibility case: the regex
matched and the cleaned line has nonempty trim. -/
def methodNoVisHit (cl : List Char) : Option (List Char × List Char × Option (List Char)) :=
  match matchMethodNoVis cl with
  | some r => if jsTrim (⟨cl⟩ : String) ≠ "" then some r else none
  | none => none

/-- Branch condition of the attribute-with-visibility case: the regex
matched and the entity has an attributes array. -/
def attrVisHit (cl : List Char) (hasAttrs : Bool) :
    Option (Char × List Char × Option (List Char)) :=
  match matchAttrVis cl with
  | some r => if hasAttrs then some r else none
  | none => none

/-- Branch condition of the attribute-without-visibility case. -/
def attrNoVisHit (cl : List Char) (hasAttrs : Bool) :
    Option (List Char × Option (List Char)) :=
  match matchAttrNoVis cl with
  | some r => if hasAttrs ∧ jsTrim (⟨cl⟩ : String) ≠ "" then some r else none
  | none => none

/-- Return-type default of the method branches: the captured type or
void. -/
def rtOrVoid (rt : Option (List Char)) : String :=
  match rt with
  | some t => ⟨t⟩
  | none => "void"

/-- Type default of the attribute branches: the captured type or
Object. -/
def tyOrObject (ty : Option (List Char)) : String :=
  match ty with
  | some t => ⟨t⟩
  | none => "Object"

/-- PlantUMLParser.parseMember: the branch cascade of the six member
regexes, in source order, acting on the cleaned line;  constructor
matches are accepted only when the captured name equals the entity name.
Pushing a method onto an Enum faults (pushMethodE). -/
def parseMember (line0 : String) (entity : Entity) : Except String Entity :=
  match ctorVisHit (cleanedMemberLine line0).data (entityName entity) with
  | some (sym, ps) =>
    .ok (pushConstructor entity
      ⟨entityName entity, none, parseParameters ⟨ps⟩, parseVisibility sym, false, false⟩)
  | none =>
  match ctorNoVisHit (cleanedMemberLine line0).data (entityName entity) with
  | some ps =>
    .ok (pushConstructor entity
      ⟨entityName entity, none, parseParameters ⟨ps⟩, "public", false, false⟩)
  | none =>
  match matchMethodVis (cleanedMemberLine line0).data with
  | some (sym, name, ps, rt) =>
    pushMethodE entity
      ⟨⟨name⟩, some (rtOrVoid rt),
       parseParameters ⟨ps⟩, parseVisibility sym,
       (memberModifiers line0).contains "static",
       (memberModifiers line0).contains "abstract"⟩
  | none =>
  match methodNoVisHit (cleanedMemberLine line0).data with
  | some (name, ps, rt) =>
    pushMethodE entity
      ⟨⟨name⟩, some (rtOrVoid rt),
       parseParameters ⟨ps⟩, "public",
       (memberModifiers line0).contains "static",
       (memberModifiers line0).contains "abstract"⟩
  | none =>
  match attrVisHit (cleanedMemberLine line0).data (entityHasAttributes entity) with
  | some (sym, name, ty) =>
    .ok (pushAttribute entity
      ⟨⟨name⟩, tyOrObject ty,
       parseVisibility sym,
       (memberModifiers line0).contains "static",
       (memberModifiers line0).contains "final"⟩)
  | none =>
  match attrNoVisHit (cleanedMemberLine line0).data (entityHasAttributes entity) with
  | some (name, ty) =>
    .ok (pushAttribute entity
      ⟨⟨name⟩, tyOrObject ty,
       "public",
       (memberModifiers line0).contains "static",
       (memberModifiers line0).contains "final"⟩)
  | none => .ok entity

/-- PlantUMLParser.isMemberDefinition: anchored start, optional
whitespace, then the alternation of a visibility symbol, a braced word,
a word followed by optional whitespace and a colon, or a word followed
by optional whitespace and an opening parenthesis. -/
def isMemberDefinition (line : String) : Bool :=
  match line.data.dropWhile jsWs with
  | [] => false
  | c :: rest =>
    visSymbol c
    || (c = '\x7b' &&
        (let w := rest.takeWhile isWordChar
         !w.isEmpty && (rest.drop w.length).head? = some '\x7d'))
    || (isWordChar c &&
        (let r := ((c :: rest).dropWhile isWordChar).dropWhile jsWs
         r.head? = some ':' || r.head? = some '('))

/-! Entity-header scanners (isEntityDefinitionStart, parseEntityStart). -/

/-- Head of the class regexes: an optional group of the literal abstract
plus one-or-more whitespace, then the literal class plus one-or-more
whitespace.  When the optional group is present but the continuation
fails, the JS fallback retries with the empty group, which immediately
fails on the class literal; the compilation reflects that. -/
def matchClassHead (l : List Char) : Option (Bool × List Char) :=
  match keywordHead "abstract".data l with
  | some r1 =>
    match keywordHead "class".data r1 with
    | some r2 => some (true, r2)
    | none => none
  | none =>
    match keywordHead "class".data l with
    | some r2 => some (false, r2)
    | none => none

/-- Inner loop of the generics group: after a first word run, a starred
group of a comma, optional whitespace and a word run, then the closing
angle bracket; the capture is the raw inner text.  Fuelled (each
iteration consumes at least one character). -/
def genInnerF : Nat → List Char → List Char → Option (List Char × List Char)
  | 0, _, _ => none
  | _ + 1, '>' :: rest, acc => some (acc, rest)
  | fuel + 1, ',' :: r, acc =>
    let ws := r.takeWhile jsWs
    let r1 := r.dropWhile jsWs
    let w := r1.takeWhile isWordChar
    if w.isEmpty then none
    else genInnerF fuel (r1.dropWhile isWordChar) (acc ++ ',' :: (ws ++ w))
  | _ + 1, _, _ => none

/-- Optional generics group of the entity regexes: an opening angle
bracket, a word run, the comma-separated continuation, a closing angle
bracket; on any failure the optional group matches empty (capture
undefined, modelled by none). -/
def matchGenerics (l : List Char) : Option (List Char × List Char) :=
  match l with
  | '<' :: r =>
    let w := r.takeWhile isWordChar
    if w.isEmpty then none
    else
      match genInnerF (r.length + 1) (r.dropWhile isWordChar) w with
      | some (inner, rest) => some (inner, rest)
      | none => none
  | _ => none

/-- Class-declaration regex of parseEntityStart: the class head, a
captured word name, and the optional generics capture split on commas
with optional following whitespace. -/
def matchClassDecl (l : List Char) : Option (Bool × List Char × List String) :=
  match matchClassHead l with
  | none => none
  | some (isAbs, r) =>
    let name := r.takeWhile isWordChar
    if name.isEmpty then none
    else
      let generics := match matchGenerics (r.dropWhile isWordChar) with
        | some (inner, _) => (splitCommaWs inner).map (fun cs => (⟨cs⟩ : String))
        | none => []
      some (isAbs, name, generics)

/-- Interface-declaration regex of parseEntityStart. -/
def matchInterfaceDecl (l : List Char) : Option (List Char × List String) :=
  match keywordHead "interface".data l with
  | none => none
  | some r =>
    let name := r.takeWhile isWordChar
    if name.isEmpty then none
    else
      let generics := match matchGenerics (r.dropWhile isWordChar) with
        | some (inner, _) => (splitCommaWs inner).map (fun cs => (⟨cs⟩ : String))
        | none => []
      some (name, generics)

/-- Enum-declaration regex of parseEntityStart. -/
def matchEnumDecl (l : List Char) : Option (List Char) :=
  match keywordHead "enum".data l with
  | none => none
  | some r =>
    let name := r.takeWhile isWordChar
    if name.isEmpty then none else some name

/-- PlantUMLParser.isEntityDefinitionStart: the three header regexes
(class with optional abstract, interface, enum), each requiring a
nonempty word name. -/
def isEntityDefinitionStart (line : String) : Bool :=
  (match matchClassHead line.data with
   | some (_, r) => !(r.takeWhile isWordChar).isEmpty
   | none => false)
  || (match keywordHead "interface".data line.data with
      | some r => !(r.takeWhile isWordChar).isEmpty
      | none => false)
  || (match keywordHead "enum".data line.data with
      | some r => !(r.takeWhile isWordChar).isEmpty
      | none => false)

/-- PlantUMLParser.parseEntityStart: build the entity for the first
matching header regex; the current package becomes the packageName. -/
def parseEntityStart (line : String) (currentPackage : Option String) : Option Entity :=
  match matchClassDecl line.data with
  | some (isAbs, name, gens) =>
    some (.cls ⟨⟨name⟩, isAbs, currentPackage, [], [], [], gens⟩)
  | none =>
  match matchInterfaceDecl line.data with
  | some (name, gens) => some (.intf ⟨⟨name⟩, currentPackage, [], gens⟩)
  | none =>
  match matchEnumDecl line.data with
  | some name => some (.enm ⟨⟨name⟩, currentPackage, []⟩)
  | none => none

/-! Package-header matcher.  The regex is anchored at both ends: the
literal package, one-or-more whitespace, an optional quote, a captured
nonempty run of characters other than quote and braces, an optional
quote, optional whitespace, an optional opening brace, end.  The
greedy one-or-more whitespace backtracks against the capture class
(which itself contains whitespace), so the whitespace widths are tried
from the maximum down. -/

def matchPackageRest (l : List Char) : Option (List Char) :=
  let r1 := match l with
    | '"' :: t => t
    | t => t
  let packChar := fun c => !(c = '"' || c = '\x7b' || c = '\x7d')
  let cap := r1.takeWhile packChar
  if cap.isEmpty then none
  else
    let r2 := r1.dropWhile packChar
    let r3 := match r2 with
      | '"' :: t => t
      | t => t
    let r4 := r3.dropWhile jsWs
    let r5 := match r4 with
      | '\x7b' :: t => t
      | t => t
    if r5.isEmpty then some cap else none

def matchPackageWs : Nat → List Char → Option (List Char)
  | 0, _ => none
  | j + 1, l =>
    match matchPackageRest (l.drop (j + 1)) with
    | some cap => some cap
    | none => matchPackageWs j l

def matchPackage (line : String) : Option String :=
  if "package".data.isPrefixOf line.data then
    let r := line.data.drop 7
    let k := (r.takeWhile jsWs).length
    if k = 0 then none
    else (matchPackageWs k r).map (fun cap => (⟨cap⟩ : String))
  else none

/-! Relationship recognition and parsing. -/

/-- PlantUMLParser.isRelationship: presence of any arrow token. -/
def isRelationship (line : String) : Bool :=
  containsSub "<|--".data line.data || containsSub "--|>".data line.data
  || containsSub "<|..".data line.data || containsSub "..|>".data line.data
  || containsSub "-->".data line.data || containsSub "<--".data line.data
  || containsSub "o-->".data line.data || containsSub "<--o".data line.data
  || containsSub "*-->".data line.data || containsSub "<--*".data line.data
  || containsSub "..>".data line.data || containsSub "<..".data line.data
  || containsSub "-->".data line.data

/-- Label regex (a quote, a captured nonempty run of non-quotes, a
quote), searched left to right; a failed attempt advances one
character. -/
def findQuoteLabel : List Char → Option (List Char)
  | [] => none
  | c :: rest =>
    if c = '"' then
      let run := rest.takeWhile (fun x => !(x = '"'))
      if !run.isEmpty && (rest.drop run.length).head? = some '"' then some run
      else findQuoteLabel rest
    else findQuoteLabel rest

/-- Single replace of the label plus trailing whitespace (a quote, a
nonempty run of non-quotes, a quote, optional whitespace) by the empty
string: only the leftmost match is removed. -/
def replaceQuoteLabel : List Char → List Char
  | [] => []
  | c :: rest =>
    if c = '"' then
      let run := rest.takeWhile (fun x => !(x = '"'))
      if !run.isEmpty && (rest.drop run.length).head? = some '"' then
        (rest.drop (run.length + 1)).dropWhile jsWs
      else c :: replaceQuoteLabel rest
    else c :: replaceQuoteLabel rest

/-- Matcher, at one start position, of the composition and aggregation
regexes (optional whitespace, a captured word run, one-or-more
whitespace, the arrow token, one-or-more whitespace, a captured word
run, optional whitespace): the adjacent classes are disjoint, so the
greedy runs are maximal. -/
def relAtTail (tok : List Char) (l3 : List Char) : Option (List Char) :=
  if tok.isPrefixOf l3 then
    if ((l3.drop tok.length).takeWhile jsWs).isEmpty then none
    else
      if (((l3.drop tok.length).dropWhile jsWs).takeWhile isWordChar).isEmpty then none
      else some (((l3.drop tok.length).dropWhile jsWs).takeWhile isWordChar)
  else none

def relAt (tok : List Char) (l : List Char) : Option (List Char × List Char) :=
  if ((l.dropWhile jsWs).takeWhile isWordChar).isEmpty then none
  else
    if (((l.dropWhile jsWs).dropWhile isWordChar).takeWhile jsWs).isEmpty then none
    else
      match relAtTail tok (((l.dropWhile jsWs).dropWhile isWordChar).dropWhile jsWs) with
      | some n2 => some ((l.dropWhile jsWs).takeWhile isWordChar, n2)
      | none => none

/-- Unanchored search for relAt: the JS match tries every start
position from the left. -/
def relSearch (tok : List Char) : List Char → Option (List Char × List Char)
  | [] => relAt tok []
  | c :: rest =>
    match relAt tok (c :: rest) with
    | some r => some r
    | none => relSearch tok rest

/-- Split on an arrow token and trim both parts, as in the
split-and-trim branches of parseRelationship; some only when the split
yields exactly two parts. -/
def splitTrim2 (line : String) (tok : String) : Option (String × String) :=
  match (jsSplit line tok).map jsTrim with
  | [a, b] => some (a, b)
  | _ => none

/-- Branch cascade of parseRelationship after label extraction and
trimming: the arrow forms are tried in source order — composition and
aggregation (regex-bound to adjacent class names) first, then the
split-based inheritance, implementation, dependency and association
branches, the reversed spellings swapping source and target. -/
def parseRelationshipCore (label : String) (line : String) : Option Relationship :=
  match relSearch "*-->".data line.data with
  | some (m1, m2) => some ⟨⟨m1⟩, ⟨m2⟩, "composition", label⟩
  | none =>
  match relSearch "<--*".data line.data with
  | some (m1, m2) => some ⟨⟨m2⟩, ⟨m1⟩, "composition", label⟩
  | none =>
  match relSearch "o-->".data line.data with
  | some (m1, m2) => some ⟨⟨m1⟩, ⟨m2⟩, "aggregation", label⟩
  | none =>
  match relSearch "<--o".data line.data with
  | some (m1, m2) => some ⟨⟨m2⟩, ⟨m1⟩, "aggregation", label⟩
  | none =>
  if containsSub "--|>".data line.data then
    (splitTrim2 line "--|>").map (fun p => ⟨p.1, p.2, "inheritance", label⟩)
  else if containsSub "<|--".data line.data then
    (splitTrim2 line "<|--").map (fun p => ⟨p.2, p.1, "inheritance", label⟩)
  else if containsSub "..|>".data line.data then
    (splitTrim2 line "..|>").map (fun p => ⟨p.1, p.2, "implementation", label⟩)
  else if containsSub "<|..".data line.data then
    (splitTrim2 line "<|..").map (fun p => ⟨p.2, p.1, "implementation", label⟩)
  else if containsSub "..>".data line.data then
    (splitTrim2 line "..>").map (fun p => ⟨p.1, p.2, "dependency", label⟩)
  else if containsSub "<..".data line.data then
    (splitTrim2 line "<..").map (fun p => ⟨p.2, p.1, "dependency", label⟩)
  else if containsSub "-->".data line.data then
    (splitTrim2 line "-->").map (fun p => ⟨p.1, p.2, "association", label⟩)
  else if containsSub "<--".data line.data then
    (splitTrim2 line "<--").map (fun p => ⟨p.2, p.1, "association", label⟩)
  else none

/-- PlantUMLParser.parseRelationship: extract a quoted label when
present, remove it from the line, trim, then run the branch cascade. -/
def parseRelationship (line0 : String) : Option Relationship :=
  match findQuoteLabel line0.data with
  | some cap => parseRelationshipCore ⟨cap⟩ (jsTrim ⟨replaceQuoteLabel line0.data⟩)
  | none => parseRelationshipCore "" (jsTrim line0)

/-! The line loop of PlantUMLParser.parse.  The JS currentEntity is a
reference to an entity object already pushed onto the diagram; the
functional model keeps a cursor (kind and index) into the diagram
lists. -/

inductive EntityKind where
  | cls
  | intf
  | enm
deriving DecidableEq, Repr

/-- Push a freshly created entity onto its diagram list (the pushes
inside parseEntityStart) and return the cursor to it. -/
def pushEntity (d : ClassDiagram) (e : Entity) : ClassDiagram × (EntityKind × Nat) :=
  match e with
  | .cls c => ({ d with classes := d.classes ++ [c] }, (.cls, d.classes.length))
  | .intf i => ({ d with interfaces := d.interfaces ++ [i] }, (.intf, d.interfaces.length))
  | .enm en => ({ d with enums := d.enums ++ [en] }, (.enm, d.enums.length))

def getEntity (d : ClassDiagram) : EntityKind × Nat → Option Entity
  | (.cls, i) => (d.classes[i]?).map .cls
  | (.intf, i) => (d.interfaces[i]?).map .intf
  | (.enm, i) => (d.enums[i]?).map .enm

def setEntity (d : ClassDiagram) : EntityKind × Nat → Entity → ClassDiagram
  | (.cls, i), .cls c => { d with classes := d.classes.set i c }
  | (.intf, i), .intf x => { d with interfaces := d.interfaces.set i x }
  | (.enm, i), .enm x => { d with enums := d.enums.set i x }
  | _, _ => d

/-- Single replace of the trailing-comma regex by the empty string, used
on enum-value lines. -/
def stripTrailingComma (line : String) : String :=
  match line.data.reverse with
  | ',' :: t => ⟨t.reverse⟩
  | _ => line

/-- The per-call loop state of parse (the JS locals) together with the
instance field currentPackage, which persists across parse calls. -/
structure ParserSt where
  diagram : ClassDiagram
  currentEntity : Option (EntityKind × Nat)
  inEntityDefinition : Bool
  packageBracketCount : Nat
  entityBracketCount : Nat
  currentPackage : Option String
deriving DecidableEq, Repr

/-- Truthiness of the JS currentPackage string (null and the empty
string are falsy). -/
def pkgTruthy : Option String → Bool
  | some p => p ≠ ""
  | none => false

/-- One iteration of the line loop of PlantUMLParser.parse, in the
source branch order: package header, package close (outside an entity),
entity header, entity close, member or enum value (inside an entity),
relationship (outside an entity); anything else is ignored. -/
def processLine (st : ParserSt) (rawLine : String) : Except String ParserSt :=
  let line := jsTrim rawLine
  if line.data.length = 0 then .ok st
  else if jsStartsWith line "package " then
    .ok (match matchPackage line with
      | some p0 =>
        let p := jsTrim p0
        let st1 := { st with currentPackage := some p }
        let st2 :=
          if jsEndsWith line "\x7b" then
            { st1 with packageBracketCount := st1.packageBracketCount + 1 }
          else st1
        { st2 with diagram := { st2.diagram with packages := setPkg st2.diagram.packages p [] } }
      | none => st)
  else if line = "\x7d" ∧ !st.inEntityDefinition ∧ st.packageBracketCount > 0 then
    let c := st.packageBracketCount - 1
    .ok { st with
      packageBracketCount := c,
      currentPackage := if c = 0 then none else st.currentPackage }
  else if isEntityDefinitionStart line then
    .ok (match parseEntityStart line st.currentPackage with
      | some ent =>
        let (d1, ref) := pushEntity st.diagram ent
        let d2 := match st.currentPackage with
          | some p =>
            if pkgTruthy (some p) ∧ (pkgLookup d1.packages p).isSome then
              { d1 with packages := pkgAppend d1.packages p (entityName ent) }
            else d1
          | none => d1
        let st1 := { st with diagram := d2, currentEntity := some ref, inEntityDefinition := true }
        if containsSub "\x7b".data line.data then
          { st1 with entityBracketCount := st1.entityBracketCount + 1 }
        else st1
      | none => st)
  else if line = "\x7d" ∧ st.inEntityDefinition then
    let c := if st.entityBracketCount > 0 then st.entityBracketCount - 1 else st.entityBracketCount
    if c = 0 then
      .ok { st with entityBracketCount := 0, inEntityDefinition := false, currentEntity := none }
    else .ok { st with entityBracketCount := c }
  else if st.inEntityDefinition ∧ st.currentEntity.isSome then
    match st.currentEntity with
    | some ref =>
      if isMemberDefinition line then
        match getEntity st.diagram ref with
        | some e =>
          match parseMember line e with
          | .ok e2 => .ok { st with diagram := setEntity st.diagram ref e2 }
          | .error msg => .error msg
        | none => .ok st
      else
        match getEntity st.diagram ref with
        | some (.enm en) =>
          let v := jsTrim (stripTrailingComma line)
          if v ≠ "" then
            let d2 := setEntity st.diagram ref (.enm { en with values := en.values ++ [v] })
            .ok { st with diagram := d2 }
          else .ok st
        | _ => .ok st
    | none => .ok st
  else if !st.inEntityDefinition ∧ isRelationship line then
    .ok (match parseRelationship line with
      | some r =>
        { st with diagram :=
          { st.diagram with relationships := st.diagram.relationships ++ [r] } }
      | none => st)
  else .ok st

/-- PlantUMLParser.parse.  The first argument is the value of the
instance field currentPackage at the call (null for a fresh parser); the
result carries the diagram together with the field value left behind,
which the source does not reset at the start of a call. -/
def parse (currentPackage : Option String) (plantUmlCode : String) :
    Except String (ClassDiagram × Option String) :=
  match ((splitOnChar '\n' (sanitizeInput plantUmlCode).data).map
      (fun cs => (⟨cs⟩ : String))).foldlM processLine
      { diagram := emptyDiagram, currentEntity := none, inEntityDefinition := false,
        packageBracketCount := 0, entityBracketCount := 0,
        currentPackage := currentPackage } with
  | .ok st => .ok (st.diagram, st.currentPackage)
  | .error e => .error e

/-- Two successive parse calls on the same parser instance with the same
text: the second call starts from the instance field left by the
first. -/
def parseTwice (currentPackage : Option String) (plantUmlCode : String) :
    Except String (ClassDiagram × Option String) :=
  match parse currentPackage plantUmlCode with
  | .ok (_, cp1) => parse cp1 plantUmlCode
  | .error e => .error e

/-! Generator framework (dist/generators/BaseGenerator.js).  A concrete
generator is the base object with some hook methods overridden; the
record holds the hooks, with the base defaults as default field
values. -/

structure BaseGenerator where
  indentSize : Nat := 4
  supportsPackages : Bool := true
  generateHeader : ClassDiagram → String := fun _ => ""
  generateFooter : ClassDiagram → String := fun _ => ""
  generatePackageStart : String → String := fun _ => ""
  generatePackageEnd : String → String := fun _ => ""
  generateClass : Class → ClassDiagram → String := fun _ _ => ""
  generateInterface : Interface → ClassDiagram → String := fun _ _ => ""
  generateEnum : Enum → ClassDiagram → String := fun _ _ => ""

/-- The body of the package-member loop of BaseGenerator.generate: the
name is looked up among the classes, then the interfaces, then the
enums; the first hit is rendered and a full miss contributes nothing. -/
def emitPackageMember (g : BaseGenerator) (d : ClassDiagram) (className : String) : String :=
  match d.classes.find? (fun c => c.name == className) with
  | some classObj => g.generateClass classObj d
  | none =>
    match d.interfaces.find? (fun i => i.name == className) with
    | some interfaceObj => g.generateInterface interfaceObj d
    | none =>
      match d.enums.find? (fun e => e.name == className) with
      | some enumObj => g.generateEnum enumObj d
      | none => ""

/-- The entitiesInPackages set of
BaseGenerator.generateEntitiesWithoutPackage, built from a packages
list.  The JS Set is used only through has, so it is modelled by a list
with add as cons and has as contains. -/
def entitiesOf (ps : List (String × List String)) : List String :=
  ps.foldl (fun s p => p.2.foldl (fun s n => n :: s) s) []

/-- The package walk of BaseGenerator.generate over a packages list: for
each package, the start wrapper, the member emissions, the end
wrapper. -/
def packagesFold (g : BaseGenerator) (d : ClassDiagram)
    (ps : List (String × List String)) (code0 : String) : String :=
  ps.foldl (fun code p =>
    (p.2.foldl (fun code n => code ++ emitPackageMember g d n)
      (code ++ g.generatePackageStart p.1)) ++ g.generatePackageEnd p.1) code0

/-- Body of BaseGenerator.generateEntitiesWithoutPackage over a given
entities-in-packages set: every class, interface and enum whose name is
not in the set is emitted, in declaration order. -/
def generateEntitiesWithoutPackageFrom (g : BaseGenerator) (d : ClassDiagram)
    (ents : List String) (code0 : String) : String :=
  d.enums.foldl
    (fun code e => if ents.contains e.name then code else code ++ g.generateEnum e d)
    (d.interfaces.foldl
      (fun code i => if ents.contains i.name then code else code ++ g.generateInterface i d)
      (d.classes.foldl
        (fun code c => if ents.contains c.name then code else code ++ g.generateClass c d)
        code0))

/-- BaseGenerator.generateEntitiesWithoutPackage. -/
def generateEntitiesWithoutPackage (g : BaseGenerator) (d : ClassDiagram)
    (code0 : String) : String :=
  generateEntitiesWithoutPackageFrom g d (entitiesOf d.packages) code0

/-- Body of BaseGenerator.generate, with the traversed packages list a
parameter (generate traverses d.packages): header, then either the
package walk followed by the entities never listed in any package, or,
without package support, all classes, interfaces and enums in
declaration order; finally the footer. -/
def generateWithPackages (g : BaseGenerator) (d : ClassDiagram)
    (ps : List (String × List String)) : String :=
  if g.supportsPackages then
    generateEntitiesWithoutPackageFrom g d (entitiesOf ps)
      (packagesFold g d ps (g.generateHeader d)) ++ g.generateFooter d
  else
    (d.enums.foldl (fun code e => code ++ g.generateEnum e d)
      (d.interfaces.foldl (fun code i => code ++ g.generateInterface i d)
        (d.classes.foldl (fun code c => code ++ g.generateClass c d)
          (g.generateHeader d)))) ++ g.generateFooter d

/-- BaseGenerator.generate. -/
def generate (g : BaseGenerator) (d : ClassDiagram) : String :=
  generateWithPackages g d d.packages

/-- Sample concrete generator used for evaluating the framework: each
entity renders as its name, all other hooks keep the base defaults. -/
def sampleHooks : BaseGenerator :=
  { generateClass := fun c _ => c.name,
    generateInterface := fun i _ => i.name,
    generateEnum := fun e _ => e.name }

/-- BaseGenerator.findParentClass: the first inheritance relationship
whose source is the class, resolved among the classes. -/
def findParentClass (classObj : Class) (d : ClassDiagram) : Option Class :=
  match d.relationships.find?
      (fun r => r.type == "inheritance" && r.sourceClass == classObj.name) with
  | some inh => d.classes.find? (fun c => c.name == inh.targetClass)
  | none => none

/-- BaseGenerator.findImplementedInterfaces: all implementation
relationships whose source is the class, resolved among the interfaces,
unresolvable targets filtered out. -/
def findImplementedInterfaces (classObj : Class) (d : ClassDiagram) : List Interface :=
  ((d.relationships.filter
      (fun r => r.type == "implementation" && r.sourceClass == classObj.name)).map
    (fun impl => d.interfaces.find? (fun i => i.name == impl.targetClass))).filterMap id

/-! Helper lemmas about takeWhile, dropWhile and the scanners. -/

theorem takeWhile_all {p : Char → Bool} : ∀ {xs : List Char},
    (∀ x ∈ xs, p x = true) → xs.takeWhile p = xs
  | [], _ => rfl
  | x :: xs, h => by
    have hx : p x = true := h x (List.mem_cons_self x xs)
    simp only [List.takeWhile_cons, hx, if_true]
    exact congrArg (x :: ·) (takeWhile_all fun y hy => h y (List.mem_cons_of_mem x hy))

theorem dropWhile_all {p : Char → Bool} : ∀ {xs : List Char},
    (∀ x ∈ xs, p x = true) → xs.dropWhile p = []
  | [], _ => rfl
  | x :: xs, h => by
    have hx : p x = true := h x (List.mem_cons_self x xs)
    simp only [List.dropWhile_cons, hx, if_true]
    exact dropWhile_all fun y hy => h y (List.mem_cons_of_mem x hy)

theorem takeWhile_append_stop {p : Char → Bool} {y : Char} {ys : List Char} :
    ∀ {xs : List Char}, (∀ x ∈ xs, p x = true) → p y = false →
    (xs ++ y :: ys).takeWhile p = xs
  | [], _, hy => by simp [List.takeWhile_cons, hy]
  | x :: xs, h, hy => by
    have hx : p x = true := h x (List.mem_cons_self x xs)
    simp only [List.cons_append, List.takeWhile_cons, hx, if_true]
    exact congrArg (x :: ·)
      (takeWhile_append_stop (fun z hz => h z (List.mem_cons_of_mem x hz)) hy)

theorem dropWhile_append_stop {p : Char → Bool} {y : Char} {ys : List Char} :
    ∀ {xs : List Char}, (∀ x ∈ xs, p x = true) → p y = false →
    (xs ++ y :: ys).dropWhile p = y :: ys
  | [], _, hy => by simp [List.dropWhile_cons, hy]
  | x :: xs, h, hy => by
    have hx : p x = true := h x (List.mem_cons_self x xs)
    simp only [List.cons_append, List.dropWhile_cons, hx, if_true]
    exact dropWhile_append_stop (fun z hz => h z (List.mem_cons_of_mem x hz)) hy

theorem dropWhile_head_false {p : Char → Bool} {x : Char} {xs : List Char}
    (hx : p x = false) : (x :: xs).dropWhile p = x :: xs := by
  simp [List.dropWhile_cons, hx]

theorem mem_of_mem_dropWhile {p : Char → Bool} {x : Char} :
    ∀ {l : List Char}, x ∈ l.dropWhile p → x ∈ l
  | [], h => h
  | y :: ys, h => by
    by_cases hy : p y = true
    · simp only [List.dropWhile_cons, hy, if_true] at h
      exact List.mem_cons_of_mem y (mem_of_mem_dropWhile h)
    · simp only [List.dropWhile_cons, hy, if_false] at h
      exact h

theorem mem_of_mem_drop {x : Char} : ∀ {n : Nat} {l : List Char}, x ∈ l.drop n → x ∈ l
  | 0, _, h => h
  | _ + 1, [], h => h
  | n + 1, y :: ys, h => List.mem_cons_of_mem y (mem_of_mem_drop (n := n) h)

theorem jsWs_imp_not_word {c : Char} (h : jsWs c = true) : isWordChar c = false := by
  unfold jsWs at h
  simp only [Bool.or_eq_true, decide_eq_true_eq] at h
  rcases h with ((((h | h) | h) | h) | h) | h <;> subst h <;> decide

theorem isWordChar_not_ws {c : Char} (h : isWordChar c = true) : jsWs c = false := by
  cases hw : jsWs c with
  | false => rfl
  | true => rw [jsWs_imp_not_word hw] at h; exact absurd h (by decide)

theorem word_ne_of_mem {c : Char} {l : List Char} (hw : ∀ x ∈ l, isWordChar x = true)
    {d : Char} (hd : isWordChar d = false) (hc : c ∈ l) : c ≠ d := by
  intro h
  subst h
  rw [hw c hc] at hd
  exact Bool.true_eq_false.mp hd

/-! Claim C1.  The live parser (src/parser/PlantUMLParser.js) normalizes
each reversed arrow spelling to the same triple as its forward spelling,
but the canonical direction of inheritance and implementation is the one
documented in the README (ChildClass --|> ParentClass): the claimed
triple for the spelling Child <|-- Parent is refuted. -/

/-- Claim C1 (amended): reversed arrow spellings normalize to the same
canonical triple as their forward counterparts; for inheritance the
canonical triple of the pair Parent <|-- Child and Child --|> Parent is
source Child, target Parent (so the spelling Child <|-- Parent denotes
Parent as the subtype and yields source Parent, target Child), for
implementation the pair Iface <|.. Impl and Impl ..|> Iface yields
source Impl, target Iface, and the reversed association, aggregation,
composition and dependency arrows yield the same triple as their
forward counterparts with the two class names swapped. -/
theorem relationship_reverse_arrow_normalization :
    parseRelationship "Parent <|-- Child" = some ⟨"Child", "Parent", "inheritance", ""⟩
  ∧ parseRelationship "Child --|> Parent" = some ⟨"Child", "Parent", "inheritance", ""⟩
  ∧ parseRelationship "Child <|-- Parent" = some ⟨"Parent", "Child", "inheritance", ""⟩
  ∧ parseRelationship "Iface <|.. Impl" = some ⟨"Impl", "Iface", "implementation", ""⟩
  ∧ parseRelationship "Impl ..|> Iface" = some ⟨"Impl", "Iface", "implementation", ""⟩
  ∧ parseRelationship "B <-- A" = parseRelationship "A --> B"
  ∧ parseRelationship "A --> B" = some ⟨"A", "B", "association", ""⟩
  ∧ parseRelationship "Element <--o Container" = parseRelationship "Container o--> Element"
  ∧ parseRelationship "Container o--> Element"
      = some ⟨"Container", "Element", "aggregation", ""⟩
  ∧ parseRelationship "Element <--* Container" = parseRelationship "Container *--> Element"
  ∧ parseRelationship "Container *--> Element"
      = some ⟨"Container", "Element", "composition", ""⟩
  ∧ parseRelationship "Service <.. User" = parseRelationship "User ..> Service"
  ∧ parseRelationship "User ..> Service" = some ⟨"User", "Service", "dependency", ""⟩ := by
  decide

/-- Claim C1 (counterexample): parsing the line Child <|-- Parent does
not yield the claimed triple source Child, target Parent; it yields the
swapped triple. -/
theorem relationship_reverse_arrow_cex :
    parseRelationship "Child <|-- Parent" ≠ some ⟨"Child", "Parent", "inheritance", ""⟩
  ∧ parseRelationship "Child <|-- Parent" = some ⟨"Parent", "Child", "inheritance", ""⟩ := by
  decide

/-- Claim C8: parsing a quoted package block containing a braced class
body yields the package entry p mapped to exactly the member list A, a
class A whose packageName is p, and the closing brace of the class body
is attributed to the entity, not the package. -/
theorem package_round_trip :
    parse none "package \"p\" \x7b\nclass A \x7b\n\x7d\n\x7d" =
      .ok (⟨[⟨"A", false, some "p", [], [], [], []⟩], [], [], [], [("p", ["A"])]⟩, none) := by
  decide

/-- Claim C4: parse is not total — a member line shaped like a method
inside an enum body makes the source push onto entity.methods, a field
an Enum does not have, and the call faults instead of returning a
Diagram. -/
theorem parse_faults_on_enum_method_line :
    parse none "enum E \x7b\n+foo()\n\x7d" =
      .error "TypeError: cannot push onto entity.methods of an Enum" := by
  decide

/-- Claim C3 (counterexample): the current-package cursor is an instance
field that is not reset at the start of parse, so a text that leaves a
package dangling makes the second of two successive calls produce a
different Diagram (here the class A acquires packageName p on the second
call). -/
theorem parse_idempotence_cex :
    Except.map Prod.fst (parseTwice none "class A\npackage p\nclass B")
      ≠ Except.map Prod.fst (parse none "class A\npackage p\nclass B") := by
  decide

/-- Claim C3 (amended): parse is a pure function of the input text and
the current-package cursor, so whenever a call leaves the cursor equal
to the value it started from — in particular for any text that closes
every package block it opens, or declares none — a second call with the
same text returns the identical Diagram; the cursor is not reset at the
start of a call, so texts that leave a package open can break this. -/
theorem parse_idempotent_when_cursor_restored (cp : Option String) (t : String)
    (d : ClassDiagram) (h : parse cp t = .ok (d, cp)) :
    parseTwice cp t = parse cp t := by
  unfold parseTwice
  rw [h]
  exact h

theorem parse_idempotent_when_cursor_restored_witness :
    parse none "class A" = .ok (⟨[⟨"A", false, none, [], [], [], []⟩], [], [], [], []⟩, none)
  ∧ parseTwice none "class A" = parse none "class A" :=
  ⟨by decide,
   parse_idempotent_when_cursor_restored none "class A"
     ⟨[⟨"A", false, none, [], [], [], []⟩], [], [], [], []⟩ (by decide)⟩

/-! Claim C7: parameter-list splitting. -/

theorem splitOnChar_not_mem {sep : Char} : ∀ {l : List Char},
    sep ∉ l → splitOnChar sep l = [l]
  | [], _ => rfl
  | c :: rest, h => by
    have hc : ¬(c = sep) := fun he => h (he ▸ List.mem_cons_self c rest)
    have hr : sep ∉ rest := fun hm => h (List.mem_cons_of_mem c hm)
    unfold splitOnChar
    simp only [hc, if_false, splitOnChar_not_mem hr]

/-- Claim C7: the parameter string with a nested generic type splits
into exactly two parameters, the generic type kept verbatim, and a
parameter token without a colon gets the type Object. -/
theorem parameter_splitting_respects_generics :
    parseParameters "a: Map<String, List<Integer>>, b: int"
      = [⟨"a", "Map<String, List<Integer>>"⟩, ⟨"b", "int"⟩]
  ∧ ∀ tok : String, ':' ∉ tok.data → paramOfToken tok = ⟨jsTrim tok, "Object"⟩ := by
  constructor
  · decide
  · intro tok h
    unfold paramOfToken
    rw [splitOnChar_not_mem h]
    rfl

theorem parameter_splitting_respects_generics_witness :
    ':' ∉ "flag".data ∧ paramOfToken "flag" = ⟨jsTrim "flag", "Object"⟩ :=
  ⟨by decide, parameter_splitting_respects_generics.2 "flag" (by decide)⟩

/-! Claim C10: parsing empty or all-whitespace input.  The sanitize
passes are no-ops on text without their trigger characters, every line
of an all-whitespace text trims to the empty line, and the loop state
never changes. -/

theorem replaceStartUmlF_no_at : ∀ (fuel : Nat) {l : List Char},
    '@' ∉ l → replaceStartUmlF fuel l = l
  | 0, _, _ => rfl
  | _ + 1, [], _ => rfl
  | fuel + 1, c :: rest, h => by
    have hc : ¬('@' == c) = true := by
      simp only [beq_iff_eq]
      exact fun he => h (he ▸ List.mem_cons_self c rest)
    have hp : "@startuml".data.isPrefixOf (c :: rest) = false := by
      show ('@' :: "startuml".data).isPrefixOf (c :: rest) = false
      simp only [List.isPrefixOf, Bool.and_eq_false_iff]
      left
      exact Bool.not_eq_true _ ▸ (by simpa using hc)
    unfold replaceStartUmlF
    simp only [hp, Bool.false_eq_true, if_false]
    exact congrArg (c :: ·) (replaceStartUmlF_no_at fuel fun hm => h (List.mem_cons_of_mem c hm))

theorem replaceEndUmlF_no_at : ∀ (fuel : Nat) {l : List Char},
    '@' ∉ l → replaceEndUmlF fuel l = l
  | 0, _, _ => rfl
  | _ + 1, [], _ => rfl
  | fuel + 1, c :: rest, h => by
    have hc : ¬('@' == c) = true := by
      simp only [beq_iff_eq]
      exact fun he => h (he ▸ List.mem_cons_self c rest)
    have hp : "@enduml".data.isPrefixOf (c :: rest) = false := by
      show ('@' :: "enduml".data).isPrefixOf (c :: rest) = false
      simp only [List.isPrefixOf, Bool.and_eq_false_iff]
      left
      exact Bool.not_eq_true _ ▸ (by simpa using hc)
    unfold replaceEndUmlF
    simp only [hp, Bool.false_eq_true, if_false]
    exact congrArg (c :: ·) (replaceEndUmlF_no_at fuel fun hm => h (List.mem_cons_of_mem c hm))

theorem replaceQuoteCommentF_no_quote : ∀ (fuel : Nat) {l : List Char},
    '\x27' ∉ l → replaceQuoteCommentF fuel l = l
  | 0, _, _ => rfl
  | _ + 1, [], _ => rfl
  | fuel + 1, c :: rest, h => by
    have hc : ¬(c = '\x27') := fun he => h (he ▸ List.mem_cons_self c rest)
    unfold replaceQuoteCommentF
    simp only [hc, if_false]
    exact congrArg (c :: ·)
      (replaceQuoteCommentF_no_quote fuel fun hm => h (List.mem_cons_of_mem c hm))

theorem replaceBlockCommentF_no_slash : ∀ (fuel : Nat) {l : List Char},
    '/' ∉ l → replaceBlockCommentF fuel l = l
  | 0, _, _ => rfl
  | _ + 1, [], _ => rfl
  | fuel + 1, c :: rest, h => by
    have hc : ¬('/' == c) = true := by
      simp only [beq_iff_eq]
      exact fun he => h (he ▸ List.mem_cons_self c rest)
    have hp : "/*".data.isPrefixOf (c :: rest) = false := by
      show ('/' :: "*".data).isPrefixOf (c :: rest) = false
      simp only [List.isPrefixOf, Bool.and_eq_false_iff]
      left
      exact Bool.not_eq_true _ ▸ (by simpa using hc)
    unfold replaceBlockCommentF
    simp only [hp, Bool.false_eq_true, if_false]
    exact congrArg (c :: ·)
      (replaceBlockCommentF_no_slash fuel fun hm => h (List.mem_cons_of_mem c hm))

theorem ws_ne_of_mem {l : List Char} (hw : ∀ x ∈ l, jsWs x = true)
    {d : Char} (hd : jsWs d = false) : d ∉ l := by
  intro hm
  rw [hw d hm] at hd
  exact Bool.true_eq_false.mp hd

theorem sanitizeInput_all_ws {t : String} (h : ∀ c ∈ t.data, jsWs c = true) :
    sanitizeInput t = t := by
  unfold sanitizeInput withFuel
  rw [replaceStartUmlF_no_at _ (ws_ne_of_mem h (by decide))]
  rw [replaceEndUmlF_no_at _ (ws_ne_of_mem h (by decide))]
  rw [replaceQuoteCommentF_no_quote _ (ws_ne_of_mem h (by decide))]
  rw [replaceBlockCommentF_no_slash _ (ws_ne_of_mem h (by decide))]

theorem splitOnChar_all_of_all {p : Char → Bool} {sep : Char} : ∀ {l : List Char},
    (∀ c ∈ l, p c = true) → ∀ piece ∈ splitOnChar sep l, ∀ c ∈ piece, p c = true
  | [], _ => by
    intro piece hp c hc
    simp only [splitOnChar, List.mem_singleton] at hp
    subst hp
    exact absurd hc (List.not_mem_nil c)
  | x :: rest, h => by
    intro piece hp c hc
    have hx := h x (List.mem_cons_self x rest)
    have hrest : ∀ c ∈ rest, p c = true := fun c hc => h c (List.mem_cons_of_mem x hc)
    unfold splitOnChar at hp
    by_cases hxs : x = sep
    · simp only [hxs, if_true] at hp
      rcases List.mem_cons.mp hp with hp1 | hp2
      · subst hp1; exact absurd hc (List.not_mem_nil c)
      · exact splitOnChar_all_of_all hrest piece hp2 c hc
    · simp only [hxs, if_false] at hp
      rcases hsplit : splitOnChar sep rest with _ | ⟨hd, tl⟩
      · rw [hsplit] at hp
        simp only [List.mem_singleton] at hp
        subst hp
        rcases List.mem_singleton.mp hc with hc1
        subst hc1
        exact hx
      · rw [hsplit] at hp
        rcases List.mem_cons.mp hp with hp1 | hp2
        · subst hp1
          rcases List.mem_cons.mp hc with hc1 | hc2
          · subst hc1; exact hx
          · exact splitOnChar_all_of_all hrest hd
              (hsplit ▸ List.mem_cons_self hd tl) c hc2
        · exact splitOnChar_all_of_all hrest piece
            (hsplit ▸ List.mem_cons_of_mem hd hp2) c hc

theorem jsTrim_all_ws {s : String} (h : ∀ c ∈ s.data, jsWs c = true) :
    jsTrim s = "" := by
  unfold jsTrim trimChars
  rw [dropWhile_all h]
  rfl

theorem processLine_ws {st : ParserSt} {line : String}
    (h : ∀ c ∈ line.data, jsWs c = true) : processLine st line = .ok st := by
  unfold processLine
  rw [jsTrim_all_ws h]
  rfl

theorem foldlM_processLine_ws {lines : List String} :
    (∀ l ∈ lines, ∀ c ∈ l.data, jsWs c = true) → ∀ st : ParserSt,
    lines.foldlM processLine st = .ok st := by
  induction lines with
  | nil => intro _ st; rfl
  | cons l ls ih =>
    intro h st
    have h1 : processLine st l = .ok st :=
      processLine_ws (h l (List.mem_cons_self l ls))
    simp only [List.foldlM_cons, h1]
    exact ih (fun x hx => h x (List.mem_cons_of_mem l hx)) st

/-- Claim C10: parse applied to the empty string, or to any string of
whitespace and blank lines only, returns a fresh Diagram with no
classes, interfaces, enums, relationships or package entries (and the
cursor argument it started from); the core parser does not reject empty
input. -/
theorem parse_empty_and_blank_input (t : String) (h : ∀ c ∈ t.data, jsWs c = true) :
    parse none t = .ok (emptyDiagram, none) := by
  unfold parse
  rw [sanitizeInput_all_ws h]
  have hpieces := @splitOnChar_all_of_all jsWs '\n' t.data h
  have hlines : ∀ l ∈ (splitOnChar '\n' t.data).map (fun cs => (⟨cs⟩ : String)),
      ∀ c ∈ l.data, jsWs c = true := by
    intro l hl c hc
    rcases List.mem_map.mp hl with ⟨piece, hpiece, rfl⟩
    exact hpieces piece hpiece c hc
  rw [foldlM_processLine_ws hlines]

theorem parse_empty_and_blank_input_witness :
    (∀ c ∈ ("" : String).data, jsWs c = true)
  ∧ parse none "" = .ok (emptyDiagram, none)
  ∧ (∀ c ∈ ("  \n\t\n " : String).data, jsWs c = true)
  ∧ parse none "  \n\t\n " = .ok (emptyDiagram, none) :=
  ⟨by decide, parse_empty_and_blank_input "" (by decide),
   by decide, parse_empty_and_blank_input "  \n\t\n " (by decide)⟩

/-! Lemmas for the parseMember claims (C5, C6): links between the
branch conditions and the leading visibility symbol of the cleaned
line, and the shape of each push. -/

theorem visSymbol_not_word {c : Char} (h : visSymbol c = true) : isWordChar c = false := by
  unfold visSymbol at h
  simp only [Bool.or_eq_true, decide_eq_true_eq] at h
  rcases h with ((h | h) | h) | h <;> subst h <;> decide

theorem word_not_visSymbol {c : Char} (h : isWordChar c = true) : visSymbol c = false := by
  cases hv : visSymbol c with
  | false => rfl
  | true => rw [visSymbol_not_word hv] at h; exact absurd h (by decide)

theorem matchCtorVis_vis {l : List Char} {sym : Char} {name ps : List Char}
    (h : matchCtorVis l = some (sym, name, ps)) : ∃ r, visHead l = some (sym, r) := by
  unfold matchCtorVis at h
  split at h
  · exact Option.noConfusion h
  · rename_i c r1 heq
    split at h
    · exact Option.noConfusion h
    · split at h
      · split at h
        · simp only [Option.some.injEq, Prod.mk.injEq] at h
          exact ⟨r1, by rw [heq, h.1]⟩
        · exact Option.noConfusion h
      · exact Option.noConfusion h

theorem matchMethodVis_vis {l : List Char} {sym : Char} {name ps : List Char}
    {rt : Option (List Char)}
    (h : matchMethodVis l = some (sym, name, ps, rt)) : ∃ r, visHead l = some (sym, r) := by
  unfold matchMethodVis at h
  split at h
  · exact Option.noConfusion h
  · rename_i c r1 heq
    split at h
    · exact Option.noConfusion h
    · split at h
      · split at h
        · simp only [Option.some.injEq, Prod.mk.injEq] at h
          exact ⟨r1, by rw [heq, h.1]⟩
        · exact Option.noConfusion h
      · exact Option.noConfusion h

theorem matchAttrVis_vis {l : List Char} {sym : Char} {name : List Char}
    {ty : Option (List Char)}
    (h : matchAttrVis l = some (sym, name, ty)) : ∃ r, visHead l = some (sym, r) := by
  unfold matchAttrVis at h
  split at h
  · exact Option.noConfusion h
  · rename_i c r1 heq
    split at h
    · exact Option.noConfusion h
    · simp only [Option.some.injEq, Prod.mk.injEq] at h
      exact ⟨r1, by rw [heq, h.1]⟩

theorem visHead_none_of_nameHead {l : List Char} {w r : List Char}
    (h : nameHead l = some (w, r)) : visHead l = none := by
  unfold nameHead at h
  split at h
  · exact Option.noConfusion h
  · rename_i hne
    cases hd : l.dropWhile jsWs with
    | nil => rw [hd] at hne; exact absurd rfl hne
    | cons c rest =>
      rw [hd] at hne
      have hw : isWordChar c = true := by
        by_contra hwc
        have hwc2 : isWordChar c = false := Bool.not_eq_true _ ▸ (by simpa using hwc)
        rw [List.takeWhile_cons_of_neg (by simp [hwc2])] at hne
        exact absurd rfl hne
      unfold visHead
      rw [hd]
      simp [word_not_visSymbol hw]

theorem nameHead_isSome_matchCtorNoVis {l : List Char} {name ps : List Char}
    (h : matchCtorNoVis l = some (name, ps)) : ∃ w r, nameHead l = some (w, r) := by
  unfold matchCtorNoVis at h
  split at h
  · exact Option.noConfusion h
  · rename_i w r heq
    exact ⟨w, r, heq⟩

theorem nameHead_isSome_matchMethodNoVis {l : List Char} {name ps : List Char}
    {rt : Option (List Char)}
    (h : matchMethodNoVis l = some (name, ps, rt)) : ∃ w r, nameHead l = some (w, r) := by
  unfold matchMethodNoVis at h
  split at h
  · exact Option.noConfusion h
  · rename_i w r heq
    exact ⟨w, r, heq⟩

theorem nameHead_isSome_matchAttrNoVis {l : List Char} {name : List Char}
    {ty : Option (List Char)}
    (h : matchAttrNoVis l = some (name, ty)) : ∃ w r, nameHead l = some (w, r) := by
  unfold matchAttrNoVis at h
  split at h
  · exact Option.noConfusion h
  · rename_i w r heq
    exact ⟨w, r, heq⟩

theorem memberVis_pushConstructor {e : Entity} {m : Method} {v : String}
    (h : v ∈ memberVisibilities (pushConstructor e m)) :
    v ∈ memberVisibilities e ∨ v = m.visibility := by
  cases e with
  | cls c =>
    simp only [pushConstructor, memberVisibilities, List.map_append, List.mem_append,
      List.map_cons, List.map_nil, List.mem_singleton] at h ⊢
    tauto
  | intf i => exact Or.inl h
  | enm e => exact Or.inl h

theorem memberVis_pushMethodE {e e2 : Entity} {m : Method} {v : String}
    (hok : pushMethodE e m = .ok e2)
    (h : v ∈ memberVisibilities e2) :
    v ∈ memberVisibilities e ∨ v = m.visibility := by
  cases e with
  | cls c =>
    simp only [pushMethodE, Except.ok.injEq] at hok
    subst hok
    simp only [memberVisibilities, List.map_append, List.mem_append,
      List.map_cons, List.map_nil, List.mem_singleton] at h ⊢
    tauto
  | intf i =>
    simp only [pushMethodE, Except.ok.injEq] at hok
    subst hok
    simp only [memberVisibilities, List.map_append, List.mem_append,
      List.map_cons, List.map_nil, List.mem_singleton] at h ⊢
    tauto
  | enm e => exact Except.noConfusion hok

theorem memberVis_pushAttribute {e : Entity} {a : Attribute} {v : String}
    (h : v ∈ memberVisibilities (pushAttribute e a)) :
    v ∈ memberVisibilities e ∨ v = a.visibility := by
  cases e with
  | cls c =>
    simp only [pushAttribute, memberVisibilities, List.map_append, List.mem_append,
      List.map_cons, List.map_nil, List.mem_singleton] at h ⊢
    tauto
  | intf i => exact Or.inl h
  | enm e => exact Or.inl h

theorem ctorVisHit_vis {cl : List Char} {nm : String} {sym : Char} {ps : List Char}
    (h : ctorVisHit cl nm = some (sym, ps)) : ∃ r, visHead cl = some (sym, r) := by
  unfold ctorVisHit at h
  split at h
  · rename_i sym0 name0 ps0 heq
    split at h
    · simp only [Option.some.injEq, Prod.mk.injEq] at h
      rcases matchCtorVis_vis heq with ⟨r, hr⟩
      exact ⟨r, by rw [hr, h.1]⟩
    · exact Option.noConfusion h
  · exact Option.noConfusion h

theorem ctorNoVisHit_novis {cl : List Char} {nm : String} {ps : List Char}
    (h : ctorNoVisHit cl nm = some ps) : visHead cl = none := by
  unfold ctorNoVisHit at h
  split at h
  · rename_i name0 ps0 heq
    rcases nameHead_isSome_matchCtorNoVis heq with ⟨w, r, hr⟩
    exact visHead_none_of_nameHead hr
  · exact Option.noConfusion h

theorem methodNoVisHit_novis {cl : List Char} {r : List Char × List Char × Option (List Char)}
    (h : methodNoVisHit cl = some r) : visHead cl = none := by
  unfold methodNoVisHit at h
  split at h
  · rename_i r0 heq
    obtain ⟨name0, ps0, rt0⟩ := r0
    rcases nameHead_isSome_matchMethodNoVis heq with ⟨w, rr, hr⟩
    exact visHead_none_of_nameHead hr
  · exact Option.noConfusion h

theorem attrVisHit_vis {cl : List Char} {hasAttrs : Bool}
    {sym : Char} {name : List Char} {ty : Option (List Char)}
    (h : attrVisHit cl hasAttrs = some (sym, name, ty)) :
    ∃ r, visHead cl = some (sym, r) := by
  unfold attrVisHit at h
  split at h
  · rename_i r0 heq
    obtain ⟨sym0, name0, ty0⟩ := r0
    split at h
    · simp only [Option.some.injEq, Prod.mk.injEq] at h
      rcases matchAttrVis_vis heq with ⟨r, hr⟩
      exact ⟨r, by rw [hr, h.1]⟩
    · exact Option.noConfusion h
  · exact Option.noConfusion h

theorem attrNoVisHit_novis {cl : List Char} {hasAttrs : Bool}
    {r : List Char × Option (List Char)}
    (h : attrNoVisHit cl hasAttrs = some r) : visHead cl = none := by
  unfold attrNoVisHit at h
  split at h
  · rename_i r0 heq
    obtain ⟨name0, ty0⟩ := r0
    rcases nameHead_isSome_matchAttrNoVis heq with ⟨w, rr, hr⟩
    exact visHead_none_of_nameHead hr
  · exact Option.noConfusion h

/-- Characterization of the visibility parseMember assigns: every member
of the updated entity either was already present or carries the
visibility determined by the leading symbol of the cleaned line (its
parseVisibility image when present, public otherwise). -/
theorem parseMember_visibility (line0 : String) (e e2 : Entity)
    (h : parseMember line0 e = .ok e2) (v : String) (hv : v ∈ memberVisibilities e2) :
    v ∈ memberVisibilities e ∨
      v = (match visHead (cleanedMemberLine line0).data with
           | some (s, _) => parseVisibility s
           | none => "public") := by
  unfold parseMember at h
  split at h
  · rename_i sym ps heq
    rcases ctorVisHit_vis heq with ⟨r, hr⟩
    rw [hr]
    simp only [Except.ok.injEq] at h
    subst h
    exact memberVis_pushConstructor hv
  · split at h
    · rename_i ps heq
      rw [ctorNoVisHit_novis heq]
      simp only [Except.ok.injEq] at h
      subst h
      exact memberVis_pushConstructor hv
    · split at h
      · rename_i sym name ps rt heq
        rcases matchMethodVis_vis heq with ⟨r, hr⟩
        rw [hr]
        exact memberVis_pushMethodE h hv
      · split at h
        · rename_i name ps rt heq
          rw [methodNoVisHit_novis heq]
          exact memberVis_pushMethodE h hv
        · split at h
          · rename_i sym name ty heq
            rcases attrVisHit_vis heq with ⟨r, hr⟩
            rw [hr]
            simp only [Except.ok.injEq] at h
            subst h
            exact memberVis_pushAttribute hv
          · split at h
            · rename_i name ty heq
              rw [attrNoVisHit_novis heq]
              simp only [Except.ok.injEq] at h
              subst h
              exact memberVis_pushAttribute hv
            · simp only [Except.ok.injEq] at h
              subst h
              exact Or.inl hv

/-- Characterization of the attribute list parseMember leaves on a
class: unchanged, or extended by one attribute whose static and final
flags are exactly the membership of static and final in the extracted
modifier list. -/
theorem parseMember_attributes (line0 : String) (c c2 : Class)
    (h : parseMember line0 (.cls c) = .ok (.cls c2)) :
    c2.attributes = c.attributes ∨
    ∃ a : Attribute, c2.attributes = c.attributes ++ [a] ∧
      a.isStatic = (memberModifiers line0).contains "static" ∧
      a.isFinal = (memberModifiers line0).contains "final" := by
  unfold parseMember at h
  split at h
  · simp only [pushConstructor, Except.ok.injEq, Entity.cls.injEq] at h
    subst h
    exact Or.inl rfl
  · split at h
    · simp only [pushConstructor, Except.ok.injEq, Entity.cls.injEq] at h
      subst h
      exact Or.inl rfl
    · split at h
      · simp only [pushMethodE, Except.ok.injEq, Entity.cls.injEq] at h
        subst h
        exact Or.inl rfl
      · split at h
        · simp only [pushMethodE, Except.ok.injEq, Entity.cls.injEq] at h
          subst h
          exact Or.inl rfl
        · split at h
          · rename_i sym name ty heq
            simp only [pushAttribute, Except.ok.injEq, Entity.cls.injEq] at h
            subst h
            exact Or.inr ⟨_, rfl, rfl, rfl⟩
          · split at h
            · rename_i name ty heq
              simp only [pushAttribute, Except.ok.injEq, Entity.cls.injEq] at h
              subst h
              exact Or.inr ⟨_, rfl, rfl, rfl⟩
            · simp only [Except.ok.injEq, Entity.cls.injEq] at h
              subst h
              exact Or.inl rfl

/-- Claim C5: a member line whose extracted modifier list carries both
static and final (in either order, from anywhere in the line, since
extractModifiers scans the whole line) yields, when it records an
attribute at all, an attribute with isStatic and isFinal both true. -/
theorem modifier_combination (line0 : String) (c c2 : Class)
    (h1 : (memberModifiers line0).contains "static" = true)
    (h2 : (memberModifiers line0).contains "final" = true)
    (h : parseMember line0 (.cls c) = .ok (.cls c2)) :
    c2.attributes = c.attributes ∨
    ∃ a : Attribute, c2.attributes = c.attributes ++ [a] ∧
      a.isStatic = true ∧ a.isFinal = true := by
  rcases parseMember_attributes line0 c c2 h with hu | ⟨a, ha, hs, hf⟩
  · exact Or.inl hu
  · exact Or.inr ⟨a, ha, by rw [hs, h1], by rw [hf, h2]⟩

theorem modifier_combination_witness :
    ((memberModifiers "- \x7bstatic\x7d \x7bfinal\x7d count: int").contains "static" = true)
  ∧ ((memberModifiers "- \x7bstatic\x7d \x7bfinal\x7d count: int").contains "final" = true)
  ∧ parseMember "- \x7bstatic\x7d \x7bfinal\x7d count: int"
      (.cls ⟨"C", false, none, [], [], [], []⟩)
      = .ok (.cls ⟨"C", false, none, [⟨"count", "int", "private", true, true⟩], [], [], []⟩)
  ∧ ((⟨"C", false, none, [⟨"count", "int", "private", true, true⟩], [], [], []⟩ : Class).attributes
       = (⟨"C", false, none, [], [], [], []⟩ : Class).attributes ∨
     ∃ a : Attribute,
       (⟨"C", false, none, [⟨"count", "int", "private", true, true⟩], [], [], []⟩ : Class).attributes
         = (⟨"C", false, none, [], [], [], []⟩ : Class).attributes ++ [a] ∧
       a.isStatic = true ∧ a.isFinal = true)
  ∧ parseMember "+ \x7bfinal\x7d \x7bstatic\x7d total: int"
      (.cls ⟨"C", false, none, [], [], [], []⟩)
      = .ok (.cls ⟨"C", false, none, [⟨"total", "int", "public", true, true⟩], [], [], []⟩)
  ∧ ((⟨"C", false, none, [⟨"total", "int", "public", true, true⟩], [], [], []⟩ : Class).attributes
       = (⟨"C", false, none, [], [], [], []⟩ : Class).attributes ∨
     ∃ a : Attribute,
       (⟨"C", false, none, [⟨"total", "int", "public", true, true⟩], [], [], []⟩ : Class).attributes
         = (⟨"C", false, none, [], [], [], []⟩ : Class).attributes ++ [a] ∧
       a.isStatic = true ∧ a.isFinal = true) :=
  ⟨by decide, by decide, by decide,
   modifier_combination "- \x7bstatic\x7d \x7bfinal\x7d count: int"
     ⟨"C", false, none, [], [], [], []⟩
     ⟨"C", false, none, [⟨"count", "int", "private", true, true⟩], [], [], []⟩
     (by decide) (by decide) (by decide),
   by decide,
   modifier_combination "+ \x7bfinal\x7d \x7bstatic\x7d total: int"
     ⟨"C", false, none, [], [], [], []⟩
     ⟨"C", false, none, [⟨"total", "int", "public", true, true⟩], [], [], []⟩
     (by decide) (by decide) (by decide)⟩

/-- Claim C6 (amended): the visibility symbols map + to public, - to
private, # to protected, ~ to package; a member recorded from a line
whose cleaned form (after stripping the braced modifier tags) begins
with no visibility symbol gets public visibility, and one recorded from
a cleaned line beginning with symbol s gets parseVisibility s.  (On the
raw line the claim fails: a modifier tag may precede the symbol; and an
entity without the member kind records nothing.) -/
theorem default_visibility_and_mapping :
    (parseVisibility '+' = "public" ∧ parseVisibility '-' = "private"
      ∧ parseVisibility '#' = "protected" ∧ parseVisibility '~' = "package")
  ∧ (∀ (line0 : String) (e e2 : Entity), parseMember line0 e = .ok e2 →
      visHead (cleanedMemberLine line0).data = none →
      ∀ v ∈ memberVisibilities e2, v ∈ memberVisibilities e ∨ v = "public")
  ∧ (∀ (line0 : String) (e e2 : Entity) (s : Char) (r : List Char),
      parseMember line0 e = .ok e2 →
      visHead (cleanedMemberLine line0).data = some (s, r) →
      ∀ v ∈ memberVisibilities e2, v ∈ memberVisibilities e ∨ v = parseVisibility s) := by
  refine ⟨⟨rfl, rfl, rfl, rfl⟩, ?_, ?_⟩
  · intro line0 e e2 h hnone v hv
    have hres := parseMember_visibility line0 e e2 h v hv
    rw [hnone] at hres
    exact hres
  · intro line0 e e2 s r h hsome v hv
    have hres := parseMember_visibility line0 e e2 h v hv
    rw [hsome] at hres
    exact hres

theorem default_visibility_and_mapping_witness :
    parseMember "name: String" (.cls ⟨"C", false, none, [], [], [], []⟩)
      = .ok (.cls ⟨"C", false, none, [⟨"name", "String", "public", false, false⟩], [], [], []⟩)
  ∧ visHead (cleanedMemberLine "name: String").data = none
  ∧ (∀ v ∈ memberVisibilities
        (.cls ⟨"C", false, none, [⟨"name", "String", "public", false, false⟩], [], [], []⟩),
      v ∈ memberVisibilities (Entity.cls ⟨"C", false, none, [], [], [], []⟩) ∨ v = "public") :=
  ⟨by decide, by decide,
   default_visibility_and_mapping.2.1 "name: String"
     (.cls ⟨"C", false, none, [], [], [], []⟩)
     (.cls ⟨"C", false, none, [⟨"name", "String", "public", false, false⟩], [], [], []⟩)
     (by decide) (by decide)⟩

/-- Claim C6 (counterexample): the line opening with a modifier tag has
no leading visibility symbol (its first character is the brace), is an
attribute line, and the parser records the attribute with visibility
private, not public — the symbol is found after the tags are
stripped. -/
theorem default_visibility_cex :
    (jsTrim "\x7bstatic\x7d -id: int").data.head? = some '\x7b'
  ∧ parseMember "\x7bstatic\x7d -id: int" (.cls ⟨"C", false, none, [], [], [], []⟩)
      = .ok (.cls ⟨"C", false, none, [⟨"id", "int", "private", true, false⟩], [], [], []⟩)
  ∧ ("private" : String) ≠ "public" := by
  decide

/-! Lemmas and theorems for claim C2: the relationship-arrow scanners
on lines built from arbitrary word-character class names. -/

theorem findQuoteLabel_none {l : List Char} (h : '"' ∉ l) : findQuoteLabel l = none := by
  induction l with
  | nil => rfl
  | cons c rest ih =>
    have hc : ¬(c = '"') := fun he => h (he ▸ List.mem_cons_self c rest)
    unfold findQuoteLabel
    simp only [hc, if_false]
    exact ih (fun hm => h (List.mem_cons_of_mem c hm))

theorem head?_reverse_getLast? (l : List Char) : l.reverse.head? = l.getLast? :=
  List.head?_reverse l

theorem trimChars_eq_self {l : List Char}
    (h1 : ∀ c, l.head? = some c → jsWs c = false)
    (h2 : ∀ c, l.getLast? = some c → jsWs c = false) :
    trimChars l = l := by
  unfold trimChars
  cases l with
  | nil => rfl
  | cons a t =>
    rw [dropWhile_head_false (h1 a rfl)]
    cases hrev : (a :: t).reverse with
    | nil => exact absurd hrev (by simp)
    | cons b rb =>
      have hb : (a :: t).getLast? = some b := by
        rw [← head?_reverse_getLast?, hrev]
        rfl
      rw [dropWhile_head_false (h2 b hb)]
      rw [← hrev]
      rw [List.reverse_reverse]

theorem relAtTail_some_isPrefixOf {tok x : List Char} {n2 : List Char}
    (h : relAtTail tok x = some n2) : tok.isPrefixOf x = true := by
  unfold relAtTail at h
  split at h
  · assumption
  · exact Option.noConfusion h

theorem relAt_some_subset {tok l : List Char} {p : List Char × List Char}
    (h : relAt tok l = some p) : ∀ c ∈ tok, c ∈ l := by
  intro c hc
  unfold relAt at h
  split at h
  · exact Option.noConfusion h
  · split at h
    · exact Option.noConfusion h
    · split at h
      · rename_i n2 heq
        have hpre := relAtTail_some_isPrefixOf heq
        have hsub : tok ⊆ (((l.dropWhile jsWs).dropWhile isWordChar).dropWhile jsWs) :=
          (List.isPrefixOf_iff_prefix.mp hpre).subset
        exact mem_of_mem_dropWhile (mem_of_mem_dropWhile (mem_of_mem_dropWhile (hsub hc)))
      · exact Option.noConfusion h

theorem relSearch_some_of_relAt {tok l : List Char} {p : List Char × List Char}
    (h : relAt tok l = some p) : relSearch tok l = some p := by
  cases l with
  | nil => exact h
  | cons c rest =>
    unfold relSearch
    rw [h]

theorem relSearch_none_of_not_mem {tok : List Char} {c0 : Char} (hc : c0 ∈ tok) :
    ∀ {l : List Char}, c0 ∉ l → relSearch tok l = none := by
  intro l
  induction l with
  | nil =>
    intro _
    show relAt tok [] = none
    cases hrel : relAt tok [] with
    | none => rfl
    | some p => exact absurd (relAt_some_subset hrel c0 hc) (List.not_mem_nil c0)
  | cons c rest ih =>
    intro h
    unfold relSearch
    cases hrel : relAt tok (c :: rest) with
    | some p => exact absurd (relAt_some_subset hrel c0 hc) h
    | none => exact ih (fun hm => h (List.mem_cons_of_mem c hm))

theorem relAt_pos {A B : List Char} {t0 : Char} {ts : List Char}
    (hA : A ≠ []) (hB : B ≠ [])
    (hAw : ∀ c ∈ A, isWordChar c = true) (hBw : ∀ c ∈ B, isWordChar c = true)
    (ht0 : jsWs t0 = false) :
    relAt (t0 :: ts) (A ++ ' ' :: ((t0 :: ts) ++ ' ' :: B)) = some (A, B) := by
  obtain ⟨a, A2, rfl⟩ := List.exists_cons_of_ne_nil hA
  obtain ⟨b, B2, rfl⟩ := List.exists_cons_of_ne_nil hB
  have hA2 : ∀ c ∈ a :: A2, isWordChar c = true := hAw
  have hdrop1 : ((a :: A2) ++ ' ' :: ((t0 :: ts) ++ ' ' :: b :: B2)).dropWhile jsWs
      = (a :: A2) ++ ' ' :: ((t0 :: ts) ++ ' ' :: b :: B2) := by
    rw [List.cons_append]
    exact dropWhile_head_false (isWordChar_not_ws (hA2 a (List.mem_cons_self a A2)))
  have htake1 : ((a :: A2) ++ ' ' :: ((t0 :: ts) ++ ' ' :: b :: B2)).takeWhile isWordChar
      = a :: A2 := takeWhile_append_stop hA2 (by decide)
  have hdrop2 : ((a :: A2) ++ ' ' :: ((t0 :: ts) ++ ' ' :: b :: B2)).dropWhile isWordChar
      = ' ' :: ((t0 :: ts) ++ ' ' :: b :: B2) := dropWhile_append_stop hA2 (by decide)
  unfold relAt
  rw [hdrop1, htake1, hdrop2]
  have htws : (' ' :: ((t0 :: ts) ++ ' ' :: b :: B2)).takeWhile jsWs
      = ' ' :: (((t0 :: ts) ++ ' ' :: b :: B2).takeWhile jsWs) := by
    exact List.takeWhile_cons_of_pos (by decide)
  have hdws : (' ' :: ((t0 :: ts) ++ ' ' :: b :: B2)).dropWhile jsWs
      = (t0 :: ts) ++ ' ' :: b :: B2 := by
    rw [List.dropWhile_cons]
    simp only [show jsWs ' ' = true from rfl, if_true]
    rw [List.cons_append]
    exact dropWhile_head_false ht0
  rw [htws, hdws]
  simp only [List.isEmpty_cons, Bool.false_eq_true, if_false]
  have htail : relAtTail (t0 :: ts) ((t0 :: ts) ++ ' ' :: b :: B2) = some (b :: B2) := by
    unfold relAtTail
    have hpre : (t0 :: ts).isPrefixOf ((t0 :: ts) ++ ' ' :: b :: B2) = true :=
      List.isPrefixOf_iff_prefix.mpr (List.prefix_append _ _)
    rw [hpre]
    simp only [if_true]
    rw [List.drop_left]
    have h1 : (' ' :: b :: B2).takeWhile jsWs = ' ' :: ((b :: B2).takeWhile jsWs) :=
      List.takeWhile_cons_of_pos (by decide)
    have h2 : (' ' :: b :: B2).dropWhile jsWs = b :: B2 := by
      rw [List.dropWhile_cons]
      simp only [show jsWs ' ' = true from rfl, if_true]
      exact dropWhile_head_false (isWordChar_not_ws (hBw b (List.mem_cons_self b B2)))
    rw [h1, h2]
    simp only [List.isEmpty_cons, Bool.false_eq_true, if_false]
    rw [takeWhile_all hBw]
    simp
  rw [htail]

theorem parseRelationshipCore_comp {l : List Char} {m1 m2 : List Char} {lab : String}
    (hpos : relSearch "*-->".data l = some (m1, m2)) :
    parseRelationshipCore lab ⟨l⟩ = some ⟨⟨m1⟩, ⟨m2⟩, "composition", lab⟩ := by
  unfold parseRelationshipCore
  rw [show (⟨l⟩ : String).data = l from rfl, hpos]

theorem parseRelationshipCore_agg {l : List Char} {m1 m2 : List Char} {lab : String}
    (h1 : relSearch "*-->".data l = none)
    (h2 : relSearch "<--*".data l = none)
    (hpos : relSearch "o-->".data l = some (m1, m2)) :
    parseRelationshipCore lab ⟨l⟩ = some ⟨⟨m1⟩, ⟨m2⟩, "aggregation", lab⟩ := by
  unfold parseRelationshipCore
  rw [show (⟨l⟩ : String).data = l from rfl, h1, h2, hpos]

theorem parseRelationship_no_label {l : List Char}
    (hq : findQuoteLabel l = none) :
    parseRelationship ⟨l⟩ = parseRelationshipCore "" (jsTrim ⟨l⟩) := by
  unfold parseRelationship
  rw [show (⟨l⟩ : String).data = l from rfl, hq]

/-- Claim C2: arrow tokens are matched with the composition and
aggregation tokens before the plain association arrow they contain: for
all word-character class names A and B, the line A *--> B parses to a
composition from A to B and the line A o--> B to an aggregation from A
to B, never to an association with a polluted class name. -/
theorem arrow_token_precedence (A B : List Char)
    (hA : A ≠ []) (hB : B ≠ [])
    (hAw : ∀ c ∈ A, isWordChar c = true) (hBw : ∀ c ∈ B, isWordChar c = true) :
    parseRelationship ⟨A ++ " *--> ".data ++ B⟩ = some ⟨⟨A⟩, ⟨B⟩, "composition", ""⟩
  ∧ parseRelationship ⟨A ++ " o--> ".data ++ B⟩ = some ⟨⟨A⟩, ⟨B⟩, "aggregation", ""⟩ := by
  obtain ⟨a, A2, rfl⟩ := List.exists_cons_of_ne_nil hA
  have hAw2 : ∀ c ∈ a :: A2, isWordChar c = true := hAw
  have hmid : ∀ (mid : List Char) {c0 : Char}, isWordChar c0 = false →
      c0 ∉ mid → c0 ∉ (a :: A2) ++ mid ++ B := by
    intro mid c0 hc0 hcmid hmem
    rcases List.mem_append.mp hmem with hm1 | hm2
    · rcases List.mem_append.mp hm1 with hma | hmm
      · rw [hAw2 _ hma] at hc0
        exact Bool.true_eq_false.mp hc0
      · exact hcmid hmm
    · rw [hBw _ hm2] at hc0
      exact Bool.true_eq_false.mp hc0
  have htrim : ∀ (mid : List Char),
      trimChars ((a :: A2) ++ mid ++ B) = (a :: A2) ++ mid ++ B := by
    intro mid
    apply trimChars_eq_self
    · intro c hc
      rw [List.cons_append, List.cons_append] at hc
      simp only [List.head?_cons, Option.some.injEq] at hc
      subst hc
      exact isWordChar_not_ws (hAw2 a (List.mem_cons_self a A2))
    · intro c hc
      rw [List.getLast?_append_of_ne_nil _ hB] at hc
      rw [← head?_reverse_getLast?] at hc
      cases hrev : B.reverse with
      | nil => rw [hrev] at hc; exact Option.noConfusion hc
      | cons b2 rb =>
        rw [hrev] at hc
        simp only [List.head?_cons, Option.some.injEq] at hc
        subst hc
        have hbm : b2 ∈ B := List.mem_reverse.mp (hrev ▸ List.mem_cons_self b2 rb)
        exact isWordChar_not_ws (hBw b2 hbm)
  constructor
  · -- the composition line
    have hq : findQuoteLabel ((a :: A2) ++ " *--> ".data ++ B) = none := by
      apply findQuoteLabel_none
      exact hmid " *--> ".data (by decide) (by decide)
    rw [parseRelationship_no_label hq]
    have hjt : jsTrim ⟨(a :: A2) ++ " *--> ".data ++ B⟩
        = ⟨(a :: A2) ++ " *--> ".data ++ B⟩ := by
      unfold jsTrim
      rw [show (⟨(a :: A2) ++ " *--> ".data ++ B⟩ : String).data
          = (a :: A2) ++ " *--> ".data ++ B from rfl]
      rw [htrim " *--> ".data]
    rw [hjt]
    have hpos : relSearch "*-->".data ((a :: A2) ++ " *--> ".data ++ B)
        = some (a :: A2, B) := by
      have h0 : (a :: A2) ++ " *--> ".data ++ B
          = (a :: A2) ++ ' ' :: ("*-->".data ++ ' ' :: B) := by
        rw [List.append_assoc]
        rfl
      rw [h0]
      exact relSearch_some_of_relAt (relAt_pos (by simp) hB hAw2 hBw (by decide))
    exact parseRelationshipCore_comp hpos
  · -- the aggregation line
    have hq : findQuoteLabel ((a :: A2) ++ " o--> ".data ++ B) = none := by
      apply findQuoteLabel_none
      exact hmid " o--> ".data (by decide) (by decide)
    rw [parseRelationship_no_label hq]
    have hjt : jsTrim ⟨(a :: A2) ++ " o--> ".data ++ B⟩
        = ⟨(a :: A2) ++ " o--> ".data ++ B⟩ := by
      unfold jsTrim
      rw [show (⟨(a :: A2) ++ " o--> ".data ++ B⟩ : String).data
          = (a :: A2) ++ " o--> ".data ++ B from rfl]
      rw [htrim " o--> ".data]
    rw [hjt]
    have hstar : '*' ∉ (a :: A2) ++ " o--> ".data ++ B :=
      hmid " o--> ".data (by decide) (by decide)
    have h1 : relSearch "*-->".data ((a :: A2) ++ " o--> ".data ++ B) = none :=
      relSearch_none_of_not_mem (by decide) hstar
    have h2 : relSearch "<--*".data ((a :: A2) ++ " o--> ".data ++ B) = none :=
      relSearch_none_of_not_mem (by decide) hstar
    have hpos : relSearch "o-->".data ((a :: A2) ++ " o--> ".data ++ B)
        = some (a :: A2, B) := by
      have h0 : (a :: A2) ++ " o--> ".data ++ B
          = (a :: A2) ++ ' ' :: ("o-->".data ++ ' ' :: B) := by
        rw [List.append_assoc]
        rfl
      rw [h0]
      exact relSearch_some_of_relAt (relAt_pos (by simp) hB hAw2 hBw (by decide))
    exact parseRelationshipCore_agg h1 h2 hpos

theorem arrow_token_precedence_witness :
    ("Container".data ≠ [] ∧ "Element".data ≠ []
      ∧ (∀ c ∈ "Container".data, isWordChar c = true)
      ∧ (∀ c ∈ "Element".data, isWordChar c = true))
  ∧ parseRelationship ⟨"Container".data ++ " *--> ".data ++ "Element".data⟩
      = some ⟨⟨"Container".data⟩, ⟨"Element".data⟩, "composition", ""⟩
  ∧ parseRelationship ⟨"Container".data ++ " o--> ".data ++ "Element".data⟩
      = some ⟨⟨"Container".data⟩, ⟨"Element".data⟩, "aggregation", ""⟩ :=
  ⟨⟨by decide, by decide, by decide, by decide⟩,
   (arrow_token_precedence "Container".data "Element".data
     (by decide) (by decide) (by decide) (by decide)).1,
   (arrow_token_precedence "Container".data "Element".data
     (by decide) (by decide) (by decide) (by decide)).2⟩

/-! Lemmas and theorems for claim C9: the generator traversal over a
packages list containing an unresolved name. -/

theorem string_append_empty (s : String) : s ++ "" = s := by
  cases s with
  | mk l =>
    show (⟨l ++ []⟩ : String) = ⟨l⟩
    rw [List.append_nil]

theorem emitPackageMember_unresolved (g : BaseGenerator) (d : ClassDiagram) (N : String)
    (hc : d.classes.find? (fun c => c.name == N) = none)
    (hi : d.interfaces.find? (fun i => i.name == N) = none)
    (he : d.enums.find? (fun e => e.name == N) = none) :
    emitPackageMember g d N = "" := by
  unfold emitPackageMember
  rw [hc, hi, he]

theorem packagesFold_skip (g : BaseGenerator) (d : ClassDiagram)
    (A C : List (String × List String)) (pk : String) (pre post : List String)
    {N : String} (hN : emitPackageMember g d N = "") (code0 : String) :
    packagesFold g d (A ++ (pk, pre ++ N :: post) :: C) code0
      = packagesFold g d (A ++ (pk, pre ++ post) :: C) code0 := by
  unfold packagesFold
  rw [List.foldl_append, List.foldl_append, List.foldl_cons, List.foldl_cons]
  apply congrArg (fun z => List.foldl _ z C)
  apply congrArg (fun z => z ++ g.generatePackageEnd pk)
  rw [List.foldl_append, List.foldl_append, List.foldl_cons, hN, string_append_empty]

theorem mem_foldl_cons_inner (x : String) : ∀ (ns : List String) (s0 : List String),
    x ∈ ns.foldl (fun s n => n :: s) s0 ↔ x ∈ ns ∨ x ∈ s0 := by
  intro ns
  induction ns with
  | nil => intro s0; simp
  | cons n rest ih =>
    intro s0
    rw [List.foldl_cons, ih]
    constructor
    · rintro (h | h)
      · exact Or.inl (List.mem_cons_of_mem n h)
      · rcases List.mem_cons.mp h with h | h
        · exact Or.inl (h ▸ List.mem_cons_self n rest)
        · exact Or.inr h
    · rintro (h | h)
      · rcases List.mem_cons.mp h with h | h
        · exact Or.inr (h ▸ List.mem_cons_self n s0)
        · exact Or.inl h
      · exact Or.inr (List.mem_cons_of_mem n h)

theorem mem_entitiesOf_fold (x : String) : ∀ (ps : List (String × List String))
    (s0 : List String),
    x ∈ ps.foldl (fun s p => p.2.foldl (fun s n => n :: s) s) s0 ↔
      (∃ p ∈ ps, x ∈ p.2) ∨ x ∈ s0 := by
  intro ps
  induction ps with
  | nil => intro s0; simp
  | cons p rest ih =>
    intro s0
    rw [List.foldl_cons, ih, mem_foldl_cons_inner]
    constructor
    · rintro (⟨q, hq, hx⟩ | (h | h))
      · exact Or.inl ⟨q, List.mem_cons_of_mem p hq, hx⟩
      · exact Or.inl ⟨p, List.mem_cons_self p rest, h⟩
      · exact Or.inr h
    · rintro (⟨q, hq, hx⟩ | h)
      · rcases List.mem_cons.mp hq with hq | hq
        · exact Or.inr (Or.inl (hq ▸ hx))
        · exact Or.inl ⟨q, hq, hx⟩
      · exact Or.inr (Or.inr h)

theorem mem_entitiesOf (x : String) (ps : List (String × List String)) :
    x ∈ entitiesOf ps ↔ ∃ p ∈ ps, x ∈ p.2 := by
  unfold entitiesOf
  rw [mem_entitiesOf_fold]
  simp

theorem contains_congr {s1 s2 : List String} (x : String)
    (h : x ∈ s1 ↔ x ∈ s2) : s1.contains x = s2.contains x := by
  cases h1 : s1.contains x with
  | true =>
    have : x ∈ s2 := h.mp (List.mem_of_elem_eq_true h1)
    exact (List.elem_eq_true_of_mem this).symm
  | false =>
    cases h2 : s2.contains x with
    | false => rfl
    | true =>
      have hmem : x ∈ s1 := h.mpr (List.mem_of_elem_eq_true h2)
      have h3 : s1.contains x = true := List.elem_eq_true_of_mem hmem
      rw [h1] at h3
      exact absurd h3 (by decide)

theorem entitiesOf_contains_congr (A C : List (String × List String)) (pk : String)
    (pre post : List String) (N x : String) (hx : x ≠ N) :
    (entitiesOf (A ++ (pk, pre ++ N :: post) :: C)).contains x
      = (entitiesOf (A ++ (pk, pre ++ post) :: C)).contains x := by
  apply contains_congr
  rw [mem_entitiesOf, mem_entitiesOf]
  constructor
  · rintro ⟨p, hp, hxp⟩
    rcases List.mem_append.mp hp with hp | hp
    · exact ⟨p, List.mem_append.mpr (Or.inl hp), hxp⟩
    · rcases List.mem_cons.mp hp with hp | hp
      · subst hp
        simp only at hxp
        rcases List.mem_append.mp hxp with hx1 | hx1
        · exact ⟨(pk, pre ++ post), List.mem_append.mpr (Or.inr (List.mem_cons_self _ _)),
            List.mem_append.mpr (Or.inl hx1)⟩
        · rcases List.mem_cons.mp hx1 with hx2 | hx2
          · exact absurd hx2 hx
          · exact ⟨(pk, pre ++ post), List.mem_append.mpr (Or.inr (List.mem_cons_self _ _)),
              List.mem_append.mpr (Or.inr hx2)⟩
      · exact ⟨p, List.mem_append.mpr (Or.inr (List.mem_cons_of_mem _ hp)), hxp⟩
  · rintro ⟨p, hp, hxp⟩
    rcases List.mem_append.mp hp with hp | hp
    · exact ⟨p, List.mem_append.mpr (Or.inl hp), hxp⟩
    · rcases List.mem_cons.mp hp with hp | hp
      · subst hp
        simp only at hxp
        rcases List.mem_append.mp hxp with hx1 | hx1
        · exact ⟨(pk, pre ++ N :: post), List.mem_append.mpr (Or.inr (List.mem_cons_self _ _)),
            List.mem_append.mpr (Or.inl hx1)⟩
        · exact ⟨(pk, pre ++ N :: post), List.mem_append.mpr (Or.inr (List.mem_cons_self _ _)),
            List.mem_append.mpr (Or.inr (List.mem_cons_of_mem N hx1))⟩
      · exact ⟨p, List.mem_append.mpr (Or.inr (List.mem_cons_of_mem _ hp)), hxp⟩

theorem foldl_ext {α : Type} (f g2 : String → α → String) (l : List α)
    (h : ∀ acc x, x ∈ l → f acc x = g2 acc x) :
    ∀ b, l.foldl f b = l.foldl g2 b := by
  induction l with
  | nil => intro b; rfl
  | cons a rest ih =>
    intro b
    rw [List.foldl_cons, List.foldl_cons, h b a (List.mem_cons_self a rest)]
    exact ih (fun acc x hx => h acc x (List.mem_cons_of_mem a hx)) _

theorem generateEntitiesWithoutPackageFrom_congr (g : BaseGenerator) (d : ClassDiagram)
    (ents1 ents2 : List String)
    (hcls : ∀ c ∈ d.classes, ents1.contains c.name = ents2.contains c.name)
    (hint : ∀ i ∈ d.interfaces, ents1.contains i.name = ents2.contains i.name)
    (henu : ∀ e ∈ d.enums, ents1.contains e.name = ents2.contains e.name)
    (code0 : String) :
    generateEntitiesWithoutPackageFrom g d ents1 code0
      = generateEntitiesWithoutPackageFrom g d ents2 code0 := by
  unfold generateEntitiesWithoutPackageFrom
  rw [foldl_ext _ _ d.classes (fun acc c hc => by rw [hcls c hc]) code0]
  rw [foldl_ext _ _ d.interfaces (fun acc i hi => by rw [hint i hi])]
  rw [foldl_ext _ _ d.enums (fun acc e he => by rw [henu e he])]

/-- Claim C9: a package-member name that matches no declared class,
interface or enum (looked up in that order by emitPackageMember) emits
the empty string, and the generate traversal over a packages list
containing such an orphan name equals the traversal with the orphan
removed — the remaining members are emitted unchanged, and generation
does not fail. -/
theorem orphan_package_tolerance (g : BaseGenerator) (d : ClassDiagram)
    (A C : List (String × List String)) (pk : String) (pre post : List String) (N : String)
    (hc : d.classes.find? (fun c => c.name == N) = none)
    (hi : d.interfaces.find? (fun i => i.name == N) = none)
    (he : d.enums.find? (fun e => e.name == N) = none) :
    emitPackageMember g d N = ""
  ∧ generateWithPackages g d (A ++ (pk, pre ++ N :: post) :: C)
      = generateWithPackages g d (A ++ (pk, pre ++ post) :: C)
  ∧ generate g d = generateWithPackages g d d.packages := by
  have hemit : emitPackageMember g d N = "" := emitPackageMember_unresolved g d N hc hi he
  refine ⟨hemit, ?_, rfl⟩
  have hclsne : ∀ c ∈ d.classes, c.name ≠ N := by
    intro c hcm
    have hb := List.find?_eq_none.mp hc c hcm
    intro heq
    exact hb (by rw [heq]; exact beq_self_eq_true N)
  have hintne : ∀ i ∈ d.interfaces, i.name ≠ N := by
    intro i him
    have hb := List.find?_eq_none.mp hi i him
    intro heq
    exact hb (by rw [heq]; exact beq_self_eq_true N)
  have henune : ∀ e ∈ d.enums, e.name ≠ N := by
    intro e hem
    have hb := List.find?_eq_none.mp he e hem
    intro heq
    exact hb (by rw [heq]; exact beq_self_eq_true N)
  unfold generateWithPackages
  cases hg : g.supportsPackages with
  | false => simp
  | true =>
    simp only [if_true]
    rw [packagesFold_skip g d A C pk pre post hemit (g.generateHeader d)]
    apply congrArg (fun z => z ++ g.generateFooter d)
    exact generateEntitiesWithoutPackageFrom_congr g d _ _
      (fun c hcm => entitiesOf_contains_congr A C pk pre post N c.name (hclsne c hcm))
      (fun i him => entitiesOf_contains_congr A C pk pre post N i.name (hintne i him))
      (fun e hem => entitiesOf_contains_congr A C pk pre post N e.name (henune e hem))
      _

theorem orphan_package_tolerance_witness :
    ((⟨[⟨"A", false, none, [], [], [], []⟩], [], [], [],
        [("p", ["Ghost", "A"])]⟩ : ClassDiagram).classes.find?
      (fun c => c.name == "Ghost") = none)
  ∧ emitPackageMember sampleHooks
      ⟨[⟨"A", false, none, [], [], [], []⟩], [], [], [], [("p", ["Ghost", "A"])]⟩ "Ghost" = ""
  ∧ generateWithPackages sampleHooks
      ⟨[⟨"A", false, none, [], [], [], []⟩], [], [], [], [("p", ["Ghost", "A"])]⟩
      [("p", ["Ghost", "A"])]
    = generateWithPackages sampleHooks
      ⟨[⟨"A", false, none, [], [], [], []⟩], [], [], [], [("p", ["Ghost", "A"])]⟩
      [("p", ["A"])]
  ∧ generateWithPackages sampleHooks
      ⟨[⟨"A", false, none, [], [], [], []⟩], [], [], [], [("p", ["Ghost", "A"])]⟩
      [("p", ["Ghost", "A"])] = "A"
  ∧ generate sampleHooks
      ⟨[⟨"A", false, none, [], [], [], []⟩], [], [], [], [("p", ["Ghost", "A"])]⟩ = "A" :=
  ⟨by decide,
   (orphan_package_tolerance sampleHooks
     ⟨[⟨"A", false, none, [], [], [], []⟩], [], [], [], [("p", ["Ghost", "A"])]⟩
     [] [] "p" [] ["A"] "Ghost" (by decide) (by decide) (by decide)).1,
   (orphan_package_tolerance sampleHooks
     ⟨[⟨"A", false, none, [], [], [], []⟩], [], [], [], [("p", ["Ghost", "A"])]⟩
     [] [] "p" [] ["A"] "Ghost" (by decide) (by decide) (by decide)).2.1,
   by decide, by decide⟩

end PlantUML
